import Mathlib

set_option autoImplicit false

/-!
Verification of the filename-sanitization core of `sanitize_filenames`
(`src/lib.rs`).  Rust strings and paths are modelled as `List Char` (the
sources only ever treat paths as valid UTF-8 via `to_string_lossy`), and the
file-system queries (`Path::is_dir`, existence, `fs::rename`) are modelled as
explicit oracles threaded through the definitions.
-/

/-- `SanitizeMode` from src/lib.rs (lines 7-11). -/
inductive SanitizeMode where
  | Legacy
  | Full
deriving DecidableEq, Repr

/-- The Unicode `White_Space` code points: the set recognised by Rust
`char::is_whitespace`, used by `sanitize_component` (line 261). -/
def rustWhitespace : List Char :=
  ['\t', '\n', Char.ofNat 0x0B, Char.ofNat 0x0C, '\r', ' ',
   Char.ofNat 0x85, Char.ofNat 0xA0, Char.ofNat 0x1680,
   Char.ofNat 0x2000, Char.ofNat 0x2001, Char.ofNat 0x2002, Char.ofNat 0x2003,
   Char.ofNat 0x2004, Char.ofNat 0x2005, Char.ofNat 0x2006, Char.ofNat 0x2007,
   Char.ofNat 0x2008, Char.ofNat 0x2009, Char.ofNat 0x200A,
   Char.ofNat 0x2028, Char.ofNat 0x2029, Char.ofNat 0x202F,
   Char.ofNat 0x205F, Char.ofNat 0x3000]

def rustIsWhitespace (c : Char) : Bool := rustWhitespace.contains c

/-- The punctuation block list matched at src/lib.rs lines 262-266:
`'.' ',' '"' ':' '?' '\'' '#' ';' '&' '*' '\\'`  (the quote and apostrophe
characters are written via their code points). -/
def legacyPunct : List Char :=
  ['.', ',', Char.ofNat 0x22, ':', '?', Char.ofNat 0x27, '#', ';', '&', '*', '\\']

/-- The bracket arm at src/lib.rs line 270. -/
def legacyBrackets : List Char := ['(', ')', '[', ']']

/-- The allow-list test of Full mode (src/lib.rs line 274):
`ch.is_ascii_alphanumeric() || ch == '_' || ch == '-'` (Lean's
`Char.isAlphanum` is exactly ASCII-alphanumeric). -/
def fullKeep (c : Char) : Bool := c.isAlphanum || c = '_' || c = '-'

/-- One character of the first ("mapping") pass of `sanitize_component`
(src/lib.rs lines 257-281): the body of the `match mode` expression. -/
def mapChar (mode : SanitizeMode) (replacement : Char) (c : Char) : Char :=
  match mode with
  | .Legacy =>
      if c = '×' then 'x'
      else if rustIsWhitespace c || legacyPunct.contains c then replacement
      else if legacyBrackets.contains c then replacement
      else c
  | .Full =>
      if fullKeep c then c else replacement

/-- The collapse loop of `sanitize_component` (src/lib.rs lines 284-297); the
`Bool` argument is the `prev_was_repl` flag. -/
def collapseGo (r : Char) : Bool → List Char → List Char
  | _, [] => []
  | prev, c :: cs =>
      if c = r then
        if prev then collapseGo r true cs else c :: collapseGo r true cs
      else c :: collapseGo r false cs

def collapseRuns (r : Char) (s : List Char) : List Char := collapseGo r false s

/-- The extension-suffix strip of `sanitize_component` (src/lib.rs lines
299-306): if `extension` is non-empty and the collapsed string ends with
`replacement ++ extension`, truncate to drop exactly that suffix; `truncate`'s
byte count equals the character count of the suffix on valid UTF-8. -/
def stripExtTail (r : Char) (ext : List Char) (s : List Char) : List Char :=
  if ext.isEmpty then s
  else if (r :: ext).isSuffixOf s then s.take (s.length - (ext.length + 1)) else s

/-- `str::trim_matches(replacement)` (src/lib.rs line 310): remove every
leading and trailing occurrence of the replacement character. -/
def trimEnds (r : Char) (s : List Char) : List Char :=
  ((s.dropWhile (· == r)).reverse.dropWhile (· == r)).reverse

/-- `sanitize_component` (src/lib.rs lines 249-318).  The final branch models
`collapsed.chars().next().into_iter().collect()` as `take 1` (`collapsed`
there is the post-truncate string, hence `collapsed2`). -/
def sanitize_component (name : List Char) (replacement : Char) (ext : List Char)
    (mode : SanitizeMode) : List Char :=
  let tmp := name.map (mapChar mode replacement)
  let collapsed := collapseRuns replacement tmp
  let collapsed2 := stripExtTail replacement ext collapsed
  let trimmed := trimEnds replacement collapsed2
  if trimmed = [] ∧ collapsed2 ≠ [] then collapsed2.take 1 else trimmed

/-- Rust `str::split(sep)` on a character list: pieces between separators,
with empty pieces kept (`"".split(sep)` yields one empty piece). -/
def splitOnChar (sep : Char) : List Char → List (List Char)
  | [] => [[]]
  | c :: cs =>
      match splitOnChar sep cs with
      | [] => [[c]]
      | s :: rest => if c = sep then [] :: s :: rest else (c :: s) :: rest

/-- `has_dot` (src/lib.rs lines 222-224): `name.split('.').count() > 1`. -/
def has_dot (p : List Char) : Bool := (splitOnChar '.' p).length > 1

/-- `is_hidden` (src/lib.rs lines 226-228): `name.starts_with('.')`. -/
def is_hidden (p : List Char) : Bool := p.head? == some '.'

/-- `has_extension` (src/lib.rs lines 234-236); `isDir` is the oracle standing
for `Path::is_dir` queried on the argument string. -/
def has_extension (isDir : List Char → Bool) (p : List Char) : Bool :=
  has_dot p && !(isDir p) && !(is_hidden p)

/-- `path_str.rsplit('.').next()`: the segment after the last `'.'` (the whole
string when it has no dot, but `extract_extension` only uses it guarded). -/
def afterLastDot (p : List Char) : List Char :=
  (p.reverse.takeWhile (· != '.')).reverse

/-- `extract_extension` (src/lib.rs lines 238-247). -/
def extract_extension (isDir : List Char → Bool) (p : List Char) : List Char :=
  if has_extension isDir p then afterLastDot p else []

/-- Right-trim of a raw Unix path given as a reversed character list: drop
trailing `'/'` separators and trailing `"."` components, as Rust's
`Components` iterator does when parsing a path from the back (a leading
character here is a trailing character of the path; a trailing `"."`
component shows up as a `'.'` followed by `'/'` or the path start). -/
def backTrim : List Char → List Char
  | [] => []
  | c :: cs =>
      if c = '/' then backTrim cs
      else if c = '.' ∧ (cs.head? = some '/' ∨ cs = []) then backTrim cs
      else c :: cs

/-- Rust `Path::file_name` on a Unix path (src/lib.rs line 328 uses it through
`unwrap_or("")`): the last component provided it is a normal one — `none` for
the empty path, a root, or a path whose last component is `".."` (trailing
separators and `"."` components are ignored). -/
def fileNameModel (p : List Char) : Option (List Char) :=
  if ((backTrim p.reverse).takeWhile (· != '/')).reverse = [] ∨
      ((backTrim p.reverse).takeWhile (· != '/')).reverse = ['.', '.'] then none
  else some ((backTrim p.reverse).takeWhile (· != '/')).reverse

/-- Rust `Path::parent` on a Unix path, fused with how `sanitized_filename`
consumes it (src/lib.rs lines 335-342): the raw text before the final
component with trailing separators and `"."` components trimmed, keeping a
root `"/"`.  Where Rust returns `Some("")` or `Some(".")` — values the caller
skips — this model returns `none` or the same skipped value; both are
observationally identical through the `parent_str` emptiness and `"."`
guards. -/
def parentRaw (p : List Char) : Option (List Char) :=
  if backTrim p.reverse = [] then none
  else if backTrim ((backTrim p.reverse).dropWhile (· != '/')) = [] then
    (if p.head? == some '/' then some ['/'] else none)
  else some (backTrim ((backTrim p.reverse).dropWhile (· != '/'))).reverse

/-- `PathBuf::push` of a relative, separator-free name (src/lib.rs lines
338-339): insert a `'/'` unless the buffer is empty or already ends with
one. -/
def pushOnto (parent : List Char) (name : List Char) : List Char :=
  if parent = [] then name
  else if parent.getLast? == some '/' then parent ++ name
  else parent ++ '/' :: name

/-- src/lib.rs lines 325-332: the extension is extracted from the input, the
final component is isolated (`unwrap_or("")` for a missing file name) and
sanitized against that extension. -/
def sanitizeBase (isDir : List Char → Bool) (input : List Char) (replacement : Char)
    (mode : SanitizeMode) : List Char :=
  sanitize_component ((fileNameModel input).getD []) replacement
    (extract_extension isDir input) mode

/-- src/lib.rs lines 334-342: reattach the parent directory portion if it is
present, non-empty and not `"."`. -/
def attachParent (input : List Char) (result : List Char) : List Char :=
  match parentRaw input with
  | some par => if par ≠ [] ∧ par ≠ ['.'] then pushOnto par result else result
  | none => result

/-- src/lib.rs lines 344-351: reattach a non-empty extension after a `'.'`,
or directly when the path built so far is empty. -/
def appendExt (ext result2 : List Char) : List Char :=
  if ext ≠ [] then (if result2 ≠ [] then result2 ++ '.' :: ext else result2 ++ ext)
  else result2

/-- `sanitized_filename` (src/lib.rs lines 320-353); `isDir` is the
file-system oracle consulted (only at `input` itself) by
`extract_extension`. -/
def sanitized_filename (isDir : List Char → Bool) (input : List Char)
    (replacement : Char) (mode : SanitizeMode) : List Char :=
  appendExt (extract_extension isDir input)
    (attachParent input (sanitizeBase isDir input replacement mode))


/-- The characters Legacy mode does not map to themselves: the whitespace and
punctuation/bracket block lists plus the multiplication sign. -/
def legacyStripped (c : Char) : Bool :=
  rustIsWhitespace c || legacyPunct.contains c || legacyBrackets.contains c || c == '×'

/-- "No run of two adjacent replacement characters". -/
def noRun (r : Char) (s : List Char) : Prop :=
  s.Chain' fun a b => ¬(a = r ∧ b = r)

instance (r : Char) (s : List Char) : Decidable (noRun r s) :=
  inferInstanceAs (Decidable (s.Chain' fun a b => ¬(a = r ∧ b = r)))

/-- The `prev_was_repl` flag after processing `x` starting from flag `b`. -/
def endFlag (r : Char) (b : Bool) (x : List Char) : Bool :=
  match x.getLast? with
  | none => b
  | some c => c == r

/-- Drop a single trailing replacement character, if present (the form the
collapsed string takes after the extension-suffix strip). -/
def dropTrailR (r : Char) (s : List Char) : List Char :=
  if s.getLast? = some r then s.dropLast else s

/-- The amended Legacy character map, stated from the corrected spec words:
block-list characters (whitespace, the punctuation list, the brackets) go to
the replacement, the multiplication sign becomes the letter x, and every
other character is unchanged. -/
def legacySpecMap (r c : Char) : Char :=
  if c = '×' then 'x'
  else if rustIsWhitespace c || legacyPunct.contains c || legacyBrackets.contains c then r
  else c

/-! ### The renamer and the tree walker -/

/-- The report lines and file-system actions of `rename_path` and
`sanitize_directory_tree` (src/lib.rs lines 355-436) as structured events:
the four `println!` messages plus the actual `fs::rename` call. -/
inductive Event where
  | unchanged (p : List Char)
  | missing (p : List Char)
  | collision (oldp newp : List Char)
  | change (oldp newp : List Char) (wouldOnly : Bool)
  | renamed (oldp newp : List Char)
deriving DecidableEq, Repr

def Event.isRenamed : Event → Bool
  | .renamed _ _ => true
  | _ => false

/-- `rename_path` (src/lib.rs lines 355-384).  Paths are compared with `=`
(standing for Rust `Path` equality); `fs` is the existence oracle
(`Path::exists`); `fails` says whether the underlying `fs::rename` call
errors, in which case the `?` propagates the I/O error (the report line
printed just before is dropped together with the `Err`, as the caller only
sees the error).  On success: the `RenameOutcome` path, the events in order,
and the updated existence oracle — updated at the two argument paths (a
directory rename also moves the subtree below it, which nothing in this
program queries afterwards). -/
def rename_path (oldp newp : List Char) (dry_run : Bool) (fs : List Char → Bool)
    (fails : List Char → List Char → Bool) :
    Except Unit (List Char × List Event × (List Char → Bool)) :=
  if oldp = newp then .ok (newp, [.unchanged oldp], fs)
  else if fs oldp = false then .ok (oldp, [.missing oldp], fs)
  else if fs newp = true ∧ oldp ≠ newp then .ok (oldp, [.collision oldp newp], fs)
  else if dry_run then .ok (newp, [.change oldp newp true], fs)
  else if fails oldp newp then .error ()
  else .ok (newp, [.change oldp newp false, .renamed oldp newp],
    fun q => if q = oldp then false else if q = newp then true else fs q)

mutual
/-- A file-system node for the tree walk: `leaf isSymlink statIsDir` covers
every entry whose symlink-aware file type is not a real directory — regular
files, symlinks (also symlinks to directories) and special files
(src/lib.rs lines 400-411, 416-419); `statIsDir` is what the
symlink-following `Path::is_dir` query used by extension extraction answers
at this node.  `dir` is a real (non-symlink) directory with its `read_dir`
listing. -/
inductive FNode where
  | leaf (isSymlink : Bool) (statIsDir : Bool)
  | dir (children : Forest)

/-- A `read_dir` listing: child names with their nodes, in iteration order. -/
inductive Forest where
  | nil
  | cons (name : List Char) (child : FNode) (rest : Forest)
end

/-- `entry.path()` (src/lib.rs line 415): the directory path joined with the
child's file name. -/
def joinPath (dir name : List Char) : List Char := pushOnto dir name

mutual
/-- `sanitize_directory_tree` (src/lib.rs lines 386-436) at an existing node.
The missing-path entry check (lines 392-398) lives in the wrapper
`sanitize_directory_tree` below; recursive calls re-enter at just-listed,
hence existing, children and take the same branches as here.  The oracle
passed to `sanitized_filename` answers the one `is_dir` stat it performs at
the inspected path: `true` for the directory branch (line 433), the node's
`statIsDir` for leaves. -/
def walkNode (dry_run : Bool) (r : Char) (mode : SanitizeMode) (path : List Char)
    (node : FNode) (fs : List Char → Bool) (fails : List Char → List Char → Bool) :
    Except Unit (List Char × List Event × (List Char → Bool)) :=
  match node with
  | .leaf _ statd =>
      rename_path path (sanitized_filename (fun _ => statd) path r mode) dry_run fs fails
  | .dir children =>
      match walkForest dry_run r mode path children fs fails with
      | .error e => .error e
      | .ok (evs, fs1) =>
          match rename_path path (sanitized_filename (fun _ => true) path r mode)
              dry_run fs1 fails with
          | .error e => .error e
          | .ok (outp, evs2, fs2) => .ok (outp, evs ++ evs2, fs2)

/-- The `for entry in fs::read_dir(path)?` loop (src/lib.rs lines 413-430):
each child is either recursed into (real directories) or renamed as a leaf,
in listing order, threading the file-system state. -/
def walkForest (dry_run : Bool) (r : Char) (mode : SanitizeMode) (parent : List Char)
    (children : Forest) (fs : List Char → Bool) (fails : List Char → List Char → Bool) :
    Except Unit (List Event × (List Char → Bool)) :=
  match children with
  | .nil => .ok ([], fs)
  | .cons name child rest =>
      match walkNode dry_run r mode (joinPath parent name) child fs fails with
      | .error e => .error e
      | .ok (_, evs1, fs1) =>
          match walkForest dry_run r mode parent rest fs1 fails with
          | .error e => .error e
          | .ok (evs2, fs2) => .ok (evs1 ++ evs2, fs2)
end

/-- Entry point with the existence check of src/lib.rs lines 392-398:
`root = none` models a path that does not exist. -/
def sanitize_directory_tree (root : Option FNode) (path : List Char) (dry_run : Bool)
    (r : Char) (mode : SanitizeMode) (fs : List Char → Bool)
    (fails : List Char → List Char → Bool) :
    Except Unit (List Char × List Event × (List Char → Bool)) :=
  match root with
  | none => .ok (path, [.missing path], fs)
  | some node => walkNode dry_run r mode path node fs fails

mutual
def sizeN : FNode → Nat
  | .leaf _ _ => 1
  | .dir cs => sizeF cs + 1

def sizeF : Forest → Nat
  | .nil => 0
  | .cons _ c rest => sizeN c + sizeF rest
end

/-! ### Generic list helpers -/

theorem head?_dropWhile_ne {p : Char → Bool} {l : List Char} {a : Char}
    (h : (l.dropWhile p).head? = some a) : p a = false := by
  have h2 := List.head?_dropWhile_not p l
  rw [h] at h2
  exact h2

theorem dropWhile_eq_self_of_head {p : Char → Bool} {l : List Char}
    (h : ∀ a, l.head? = some a → p a = false) : l.dropWhile p = l := by
  cases l with
  | nil => rfl
  | cons c cs => simp [List.dropWhile_cons, h c rfl]

theorem map_eq_self_of_fixes {f : Char → Char} {s : List Char}
    (h : ∀ c ∈ s, f c = c) : s.map f = s :=
  (List.map_congr_left h).trans s.map_id

/-! ### Facts about the collapse pass -/

theorem collapseGo_true_head (r : Char) (s : List Char) :
    (collapseGo r true s).head? ≠ some r := by
  induction s with
  | nil => simp [collapseGo]
  | cons c cs ih =>
      by_cases h : c = r
      · simpa [collapseGo, h] using ih
      · simp [collapseGo, h]

theorem noRun_collapseGo (r : Char) (s : List Char) : ∀ b, noRun r (collapseGo r b s) := by
  induction s with
  | nil => intro b; simp [collapseGo, noRun]
  | cons c cs ih =>
      intro b
      by_cases h : c = r
      · subst h
        cases b with
        | true => simpa [collapseGo] using ih true
        | false =>
            have hout : collapseGo c false (c :: cs) = c :: collapseGo c true cs := by
              simp [collapseGo]
            rw [hout, noRun, List.chain'_cons']
            refine ⟨?_, ih true⟩
            intro y hy hcontra
            exact collapseGo_true_head c cs (by rw [hy, hcontra.2])
      · have hout : collapseGo r b (c :: cs) = c :: collapseGo r false cs := by
          simp [collapseGo, h]
        rw [hout, noRun, List.chain'_cons']
        refine ⟨?_, ih false⟩
        intro y _ hcontra
        exact h hcontra.1

theorem collapseGo_sublist (r : Char) (s : List Char) :
    ∀ b, List.Sublist (collapseGo r b s) s := by
  induction s with
  | nil => intro b; simp [collapseGo]
  | cons c cs ih =>
      intro b
      by_cases h : c = r
      · subst h
        cases b with
        | true =>
            have hout : collapseGo c true (c :: cs) = collapseGo c true cs := by
              simp [collapseGo]
            rw [hout]
            exact List.Sublist.cons c (ih true)
        | false =>
            have hout : collapseGo c false (c :: cs) = c :: collapseGo c true cs := by
              simp [collapseGo]
            rw [hout]
            exact List.Sublist.cons₂ c (ih true)
      · have hout : collapseGo r b (c :: cs) = c :: collapseGo r false cs := by
          simp [collapseGo, h]
        rw [hout]
        exact List.Sublist.cons₂ c (ih false)

theorem collapseGo_eq_self {r : Char} {s : List Char} (h : noRun r s) :
    ∀ b, (b = true → s.head? ≠ some r) → collapseGo r b s = s := by
  induction s with
  | nil => intro b _; simp [collapseGo]
  | cons c cs ih =>
      intro b hb
      rw [noRun, List.chain'_cons'] at h
      by_cases hc : c = r
      · have hbf : b = false := by
          cases b with
          | false => rfl
          | true => exact absurd (by simp [hc]) (hb rfl)
        subst hbf
        subst hc
        have hout : collapseGo c false (c :: cs) = c :: collapseGo c true cs := by
          simp [collapseGo]
        rw [hout]
        have htl : collapseGo c true cs = cs := by
          apply ih h.2
          intro _ hcs
          cases hhd : cs.head? with
          | none => rw [hhd] at hcs; exact Option.noConfusion hcs
          | some y =>
              rw [hhd] at hcs
              have hy : y = c := by injection hcs
              exact h.1 y hhd ⟨rfl, hy⟩
        rw [htl]
      · have hout : collapseGo r b (c :: cs) = c :: collapseGo r false cs := by
          simp [collapseGo, hc]
        rw [hout, ih h.2 false (by intro hff; exact Bool.noConfusion hff)]

theorem endFlag_cons (r : Char) (b : Bool) (c : Char) (cs : List Char) :
    endFlag r b (c :: cs) = endFlag r (c == r) cs := by
  cases cs with
  | nil => simp [endFlag]
  | cons d ds =>
      cases hl : (d :: ds).getLast? with
      | none =>
          rw [List.getLast?_eq_none_iff] at hl
          exact List.noConfusion hl
      | some x => simp [endFlag, List.getLast?_cons_cons, hl]

theorem collapseGo_append (r : Char) (x y : List Char) :
    ∀ b, collapseGo r b (x ++ y) = collapseGo r b x ++ collapseGo r (endFlag r b x) y := by
  induction x with
  | nil => intro b; simp [collapseGo, endFlag]
  | cons c cs ih =>
      intro b
      rw [List.cons_append, endFlag_cons]
      by_cases h : c = r
      · subst h
        have hcr : (c == c) = true := by simp
        rw [hcr]
        cases b with
        | true =>
            have h1 : collapseGo c true (c :: (cs ++ y)) = collapseGo c true (cs ++ y) := by
              simp [collapseGo]
            have h2 : collapseGo c true (c :: cs) = collapseGo c true cs := by
              simp [collapseGo]
            rw [h1, h2, ih true]
        | false =>
            have h1 : collapseGo c false (c :: (cs ++ y)) = c :: collapseGo c true (cs ++ y) := by
              simp [collapseGo]
            have h2 : collapseGo c false (c :: cs) = c :: collapseGo c true cs := by
              simp [collapseGo]
            rw [h1, h2, ih true, List.cons_append]
      · have hcr : (c == r) = false := by simp [h]
        rw [hcr]
        have h1 : collapseGo r b (c :: (cs ++ y)) = c :: collapseGo r false (cs ++ y) := by
          simp [collapseGo, h]
        have h2 : collapseGo r b (c :: cs) = c :: collapseGo r false cs := by
          simp [collapseGo, h]
        rw [h1, h2, ih false, List.cons_append]

/-! ### Facts about edge trimming -/

theorem trimEnds_eq_nil_iff {r : Char} {s : List Char} :
    trimEnds r s = [] ↔ ∀ c ∈ s, c = r := by
  unfold trimEnds
  rw [List.reverse_eq_nil_iff, List.dropWhile_eq_nil_iff]
  constructor
  · intro h c hc
    by_cases hmem : c ∈ s.dropWhile (· == r)
    · exact beq_iff_eq.mp (h c (List.mem_reverse.mpr hmem))
    · have hsplit : c ∈ s.takeWhile (· == r) ++ s.dropWhile (· == r) := by
        rw [List.takeWhile_append_dropWhile]
        exact hc
      rcases List.mem_append.mp hsplit with h1 | h1
      · have h2 := List.mem_takeWhile_imp h1
        exact beq_iff_eq.mp h2
      · exact absurd h1 hmem
  · intro h c hc
    have hcs : c ∈ s :=
      ((List.dropWhile_suffix _).sublist).subset (List.mem_reverse.mp hc)
    simp [h c hcs]

theorem trimEnds_head (r : Char) (s : List Char) : (trimEnds r s).head? ≠ some r := by
  unfold trimEnds
  intro h
  rw [List.head?_reverse] at h
  obtain ⟨pre, hpre⟩ :=
    List.dropWhile_suffix (l := (s.dropWhile (· == r)).reverse) (p := (· == r))
  have hg : ((s.dropWhile (· == r)).reverse).getLast? = some r := by
    rw [← hpre, List.getLast?_append, h]
    rfl
  rw [List.getLast?_reverse] at hg
  have h2 := head?_dropWhile_ne hg
  simp at h2

theorem trimEnds_getLast (r : Char) (s : List Char) : (trimEnds r s).getLast? ≠ some r := by
  unfold trimEnds
  intro h
  rw [List.getLast?_reverse] at h
  have := head?_dropWhile_ne h
  simp at this

theorem trimEnds_eq_self {r : Char} {s : List Char}
    (h1 : s.head? ≠ some r) (h2 : s.getLast? ≠ some r) : trimEnds r s = s := by
  unfold trimEnds
  have e1 : s.dropWhile (· == r) = s := by
    apply dropWhile_eq_self_of_head
    intro a ha
    rw [ha] at h1
    simp only [beq_eq_false_iff_ne, ne_eq]
    intro har
    exact h1 (by rw [har])
  rw [e1]
  have e2 : s.reverse.dropWhile (· == r) = s.reverse := by
    apply dropWhile_eq_self_of_head
    intro a ha
    rw [List.head?_reverse] at ha
    rw [ha] at h2
    simp only [beq_eq_false_iff_ne, ne_eq]
    intro har
    exact h2 (by rw [har])
  rw [e2, List.reverse_reverse]

theorem trimEnds_within (r : Char) (s : List Char) : trimEnds r s <:+: s := by
  unfold trimEnds
  have h1 : (s.dropWhile (· == r)).reverse.dropWhile (· == r) <:+
      (s.dropWhile (· == r)).reverse := List.dropWhile_suffix _
  have h2 : ((s.dropWhile (· == r)).reverse.dropWhile (· == r)).reverse <+:
      ((s.dropWhile (· == r)).reverse).reverse := List.reverse_prefix.mpr h1
  rw [List.reverse_reverse] at h2
  exact h2.isInfix.trans (List.dropWhile_suffix _).isInfix

/-! ### Facts about the extension-suffix strip -/

theorem stripExtTail_of_suffix {r : Char} {ext s pre : List Char}
    (hne : ext ≠ []) (h : s = pre ++ r :: ext) : stripExtTail r ext s = pre := by
  subst h
  unfold stripExtTail
  rw [if_neg (by simpa using hne)]
  rw [if_pos (by rw [List.isSuffixOf_iff_suffix]; exact List.suffix_append _ _)]
  have hl : (pre ++ r :: ext).length - (ext.length + 1) = pre.length := by
    simp
  rw [hl, List.take_left]

theorem stripExtTail_not_suffix {r : Char} {ext s : List Char}
    (h : ¬ (r :: ext) <:+ s) : stripExtTail r ext s = s := by
  unfold stripExtTail
  by_cases he : ext.isEmpty
  · rw [if_pos he]
  · rw [if_neg he, if_neg (by rw [List.isSuffixOf_iff_suffix]; exact h)]

theorem stripExtTail_nil (r : Char) (s : List Char) : stripExtTail r [] s = s := rfl

theorem stripExtTail_isPre (r : Char) (ext s : List Char) :
    stripExtTail r ext s <+: s := by
  unfold stripExtTail
  by_cases he : ext.isEmpty
  · rw [if_pos he]
  · rw [if_neg he]
    by_cases hs : (r :: ext).isSuffixOf s
    · rw [if_pos hs]
      exact List.take_prefix _ _
    · rw [if_neg hs]

/-! ### Facts about the mapping pass -/

theorem mapChar_legacy_fixes {r c : Char} (h : legacyStripped c = false) :
    mapChar .Legacy r c = c := by
  unfold legacyStripped at h
  simp only [Bool.or_eq_false_iff, beq_eq_false_iff_ne, ne_eq] at h
  unfold mapChar
  rw [if_neg h.2, if_neg (by rw [h.1.1.1, h.1.1.2]; simp), if_neg (by rw [h.1.2]; simp)]

theorem mapChar_full_fixes {r c : Char} (h : fullKeep c = true ∨ c = r) :
    mapChar .Full r c = c := by
  unfold mapChar
  rcases h with h | h
  · rw [if_pos h]
  · subst h
    by_cases hk : fullKeep c = true
    · rw [if_pos hk]
    · rw [if_neg hk]

theorem mapChar_full_mem (r c : Char) :
    fullKeep (mapChar .Full r c) = true ∨ mapChar .Full r c = r := by
  unfold mapChar
  by_cases hk : fullKeep c = true
  · rw [if_pos hk]; exact Or.inl hk
  · rw [if_neg hk]; exact Or.inr rfl

/-! ### Facts about dot detection -/

theorem splitOnChar_ne_nil (sep : Char) (p : List Char) : splitOnChar sep p ≠ [] := by
  cases p with
  | nil => simp [splitOnChar]
  | cons c cs =>
      unfold splitOnChar
      cases splitOnChar sep cs with
      | nil => simp
      | cons s rest =>
          by_cases h : c = sep
          · simp [h]
          · simp [h]

theorem splitOnChar_length (sep : Char) (p : List Char) :
    (splitOnChar sep p).length = p.count sep + 1 := by
  induction p with
  | nil => simp [splitOnChar]
  | cons c cs ih =>
      cases hs : splitOnChar sep cs with
      | nil => exact absurd hs (splitOnChar_ne_nil sep cs)
      | cons s rest =>
          have hstep : splitOnChar sep (c :: cs) =
              if c = sep then [] :: s :: rest else (c :: s) :: rest := by
            unfold splitOnChar
            rw [hs]
          rw [hs] at ih
          rw [hstep]
          by_cases h : c = sep
          · subst h
            rw [if_pos rfl, List.count_cons_self]
            simp only [List.length_cons] at ih ⊢
            omega
          · rw [if_neg h, List.count_cons_of_ne (Ne.symm h)]
            simp only [List.length_cons] at ih ⊢
            omega

theorem has_dot_iff {p : List Char} : has_dot p = true ↔ '.' ∈ p := by
  unfold has_dot
  rw [splitOnChar_length]
  simp only [gt_iff_lt, decide_eq_true_eq]
  constructor
  · intro h
    have : 0 < p.count '.' := by omega
    exact List.count_pos_iff.mp this
  · intro h
    have : 0 < p.count '.' := List.count_pos_iff.mpr h
    omega

/-! ### Facts about extension extraction -/

theorem afterLastDot_no_dot (p : List Char) : '.' ∉ afterLastDot p := by
  unfold afterLastDot
  intro h
  have h1 := List.mem_takeWhile_imp (List.mem_reverse.mp h)
  simp at h1

theorem afterLastDot_append {x e : List Char} (he : '.' ∉ e) :
    afterLastDot (x ++ '.' :: e) = e := by
  unfold afterLastDot
  rw [List.reverse_append, List.reverse_cons, List.append_assoc]
  rw [List.takeWhile_append_of_pos (by
    intro a ha
    simp only [bne_iff_ne, ne_eq]
    intro hc
    exact he (hc ▸ List.mem_reverse.mp ha))]
  rw [List.singleton_append, List.takeWhile_cons_of_neg (by simp)]
  simp

theorem afterLastDot_decomp {p : List Char} (h : '.' ∈ p) :
    ∃ w, p = w ++ '.' :: afterLastDot p := by
  have hsplit : p.reverse.takeWhile (· != '.') ++ p.reverse.dropWhile (· != '.') = p.reverse :=
    List.takeWhile_append_dropWhile _ _
  cases hv : p.reverse.dropWhile (· != '.') with
  | nil =>
      exfalso
      rw [hv, List.append_nil] at hsplit
      have : '.' ∈ p.reverse.takeWhile (· != '.') := by
        rw [hsplit]
        exact List.mem_reverse.mpr h
      have h1 := List.mem_takeWhile_imp this
      simp at h1
  | cons a v' =>
      have ha : a = '.' := by
        have h1 : (p.reverse.dropWhile (· != '.')).head? = some a := by rw [hv]; rfl
        have h2 := head?_dropWhile_ne h1
        simpa using h2
      subst ha
      refine ⟨v'.reverse, ?_⟩
      show p = v'.reverse ++ '.' :: (p.reverse.takeWhile (· != '.')).reverse
      have hrev : p.reverse = p.reverse.takeWhile (· != '.') ++ '.' :: v' := by
        conv_lhs => rw [← hsplit]
        rw [hv]
      calc p = p.reverse.reverse := (List.reverse_reverse p).symm
        _ = (p.reverse.takeWhile (· != '.') ++ '.' :: v').reverse := by rw [← hrev]
        _ = ('.' :: v').reverse ++ (p.reverse.takeWhile (· != '.')).reverse := by
              rw [List.reverse_append]
        _ = v'.reverse ++ '.' :: (p.reverse.takeWhile (· != '.')).reverse := by
              rw [List.reverse_cons]
              simp

/-! ### Shape of `sanitize_component` output -/

theorem sanitize_component_expand (name : List Char) (r : Char) (ext : List Char)
    (mode : SanitizeMode) :
    sanitize_component name r ext mode =
      (if trimEnds r (stripExtTail r ext (collapseRuns r (name.map (mapChar mode r)))) = [] ∧
          stripExtTail r ext (collapseRuns r (name.map (mapChar mode r))) ≠ [] then
        (stripExtTail r ext (collapseRuns r (name.map (mapChar mode r)))).take 1
      else trimEnds r (stripExtTail r ext (collapseRuns r (name.map (mapChar mode r))))) := by
  rfl

/-! ### Facts about the path model -/

theorem takeWhile_of_all {p : Char → Bool} {l : List Char} (h : ∀ a ∈ l, p a = true) :
    l.takeWhile p = l := by
  induction l with
  | nil => rfl
  | cons c cs ih =>
      rw [List.takeWhile_cons_of_pos (h c (List.mem_cons_self c cs)), ih]
      intro a ha
      exact h a (List.mem_cons_of_mem c ha)

theorem takeWhile_slash_dot_iff {c : Char} {cs : List Char} :
    List.takeWhile (· != '/') (c :: cs) = ['.'] ↔
      (c = '.' ∧ (cs.head? = some '/' ∨ cs = [])) := by
  by_cases h : c = '/'
  · subst h
    rw [List.takeWhile_cons_of_neg (by simp)]
    simp
  · rw [List.takeWhile_cons_of_pos (by simp [h])]
    constructor
    · intro he
      injection he with ha hb
      refine ⟨ha, ?_⟩
      cases cs with
      | nil => exact Or.inr rfl
      | cons d ds =>
          left
          by_cases hd : d = '/'
          · rw [hd]; rfl
          · rw [List.takeWhile_cons_of_pos (by simp [hd])] at hb
            exact absurd hb (by simp)
    · rintro ⟨h1, h2⟩
      subst h1
      rcases h2 with h2 | h2
      · cases cs with
        | nil => simp at h2
        | cons d ds =>
            have hd : d = '/' := by
              have : (d :: ds).head? = some '/' := h2
              injection this
            subst hd
            rw [List.takeWhile_cons_of_neg (by simp)]
      · subst h2
        rfl

theorem backTrim_head (s : List Char) : ∀ a, (backTrim s).head? = some a → a ≠ '/' := by
  induction s with
  | nil => intro a h; exact absurd h (by simp [backTrim])
  | cons c cs ih =>
      intro a h
      unfold backTrim at h
      by_cases h1 : c = '/'
      · rw [if_pos h1] at h
        exact ih a h
      · rw [if_neg h1] at h
        by_cases h2 : c = '.' ∧ (cs.head? = some '/' ∨ cs = [])
        · rw [if_pos h2] at h
          exact ih a h
        · rw [if_neg h2] at h
          have ha : a = c := by
            rw [List.head?_cons] at h
            exact (Option.some.inj h).symm
          rw [ha]
          exact h1

theorem backTrim_notdot (s : List Char) :
    (backTrim s).takeWhile (· != '/') ≠ ['.'] := by
  induction s with
  | nil => simp [backTrim]
  | cons c cs ih =>
      unfold backTrim
      by_cases h1 : c = '/'
      · rw [if_pos h1]; exact ih
      · rw [if_neg h1]
        by_cases h2 : c = '.' ∧ (cs.head? = some '/' ∨ cs = [])
        · rw [if_pos h2]; exact ih
        · rw [if_neg h2]
          intro hcontra
          exact h2 (takeWhile_slash_dot_iff.mp hcontra)

theorem backTrim_suffix (s : List Char) : backTrim s <:+ s := by
  induction s with
  | nil => simp [backTrim]
  | cons c cs ih =>
      unfold backTrim
      by_cases h1 : c = '/'
      · rw [if_pos h1]
        exact ih.trans (List.suffix_cons c cs)
      · rw [if_neg h1]
        by_cases h2 : c = '.' ∧ (cs.head? = some '/' ∨ cs = [])
        · rw [if_pos h2]
          exact ih.trans (List.suffix_cons c cs)
        · rw [if_neg h2]

theorem backTrim_eq_self {s : List Char} (h1 : ∀ a, s.head? = some a → a ≠ '/')
    (h2 : s.takeWhile (· != '/') ≠ ['.']) : backTrim s = s := by
  cases s with
  | nil => rfl
  | cons c cs =>
      unfold backTrim
      have hc : c ≠ '/' := h1 c rfl
      rw [if_neg hc, if_neg (fun hcontra => h2 (takeWhile_slash_dot_iff.mpr hcontra))]

theorem backTrim_idem (s : List Char) : backTrim (backTrim s) = backTrim s :=
  backTrim_eq_self (backTrim_head s) (backTrim_notdot s)

theorem fileNameModel_noslash {x : List Char} (hs : '/' ∉ x) (hne : x ≠ [])
    (h1 : x ≠ ['.']) (h2 : x ≠ ['.', '.']) : fileNameModel x = some x := by
  unfold fileNameModel
  have hall : ∀ a ∈ x.reverse, (a != '/') = true := by
    intro a ha
    simp only [bne_iff_ne, ne_eq]
    intro hav
    exact hs (hav ▸ List.mem_reverse.mp ha)
  have hbt : backTrim x.reverse = x.reverse := by
    apply backTrim_eq_self
    · intro a ha hav
      have hmem : a ∈ x.reverse := List.mem_of_mem_head? ha
      have := hall a hmem
      simp [hav] at this
    · rw [takeWhile_of_all hall]
      intro hcontra
      exact h1 (by rw [← List.reverse_reverse x, hcontra]; rfl)
  rw [hbt, takeWhile_of_all hall, List.reverse_reverse]
  rw [if_neg (by push_neg; exact ⟨hne, h2⟩)]

theorem parentRaw_noslash {x : List Char} (hs : '/' ∉ x) (hne : x ≠ [])
    (h1 : x ≠ ['.']) : parentRaw x = none := by
  unfold parentRaw
  have hall : ∀ a ∈ x.reverse, (a != '/') = true := by
    intro a ha
    simp only [bne_iff_ne, ne_eq]
    intro hav
    exact hs (hav ▸ List.mem_reverse.mp ha)
  have hbt : backTrim x.reverse = x.reverse := by
    apply backTrim_eq_self
    · intro a ha hav
      have hmem : a ∈ x.reverse := List.mem_of_mem_head? ha
      have := hall a hmem
      simp [hav] at this
    · rw [takeWhile_of_all hall]
      intro hcontra
      exact h1 (by rw [← List.reverse_reverse x, hcontra]; rfl)
  rw [hbt]
  rw [if_neg (by simpa using hne)]
  have hdw : x.reverse.dropWhile (· != '/') = [] := List.dropWhile_eq_nil_iff.mpr hall
  rw [hdw]
  have hbn : backTrim ([] : List Char) = [] := rfl
  rw [hbn, if_pos rfl]
  rw [if_neg ?_]
  cases x with
  | nil => exact absurd rfl hne
  | cons c cs =>
      simp only [List.head?_cons, beq_iff_eq, Option.some.injEq]
      intro hcv
      exact hs (by rw [hcv]; exact List.mem_cons_self _ _)

theorem path_concat_fileName {P tail : List Char}
    (hts : '/' ∉ tail) (htne : tail ≠ []) (ht1 : tail ≠ ['.']) (ht2 : tail ≠ ['.', '.']) :
    fileNameModel (P ++ '/' :: tail) = some tail ∧
    backTrim (P ++ '/' :: tail).reverse = (P ++ '/' :: tail).reverse := by
  have hall : ∀ a ∈ tail.reverse, (a != '/') = true := by
    intro a ha
    simp only [bne_iff_ne, ne_eq]
    intro hav
    exact hts (hav ▸ List.mem_reverse.mp ha)
  have hrev : (P ++ '/' :: tail).reverse = tail.reverse ++ '/' :: P.reverse := by
    rw [List.reverse_append, List.reverse_cons, List.append_assoc, List.singleton_append]
  have htw : (tail.reverse ++ '/' :: P.reverse).takeWhile (· != '/') = tail.reverse := by
    rw [List.takeWhile_append_of_pos hall, List.takeWhile_cons_of_neg (by simp),
      List.append_nil]
  have hbt : backTrim (tail.reverse ++ '/' :: P.reverse) = tail.reverse ++ '/' :: P.reverse := by
    apply backTrim_eq_self
    · intro a ha hav
      cases htl : tail.reverse with
      | nil => exact htne (by rw [← List.reverse_reverse tail, htl]; rfl)
      | cons b bs =>
          rw [htl, List.cons_append, List.head?_cons] at ha
          have hab : a = b := (Option.some.inj ha).symm
          have hbmem : b ∈ tail.reverse := by rw [htl]; exact List.mem_cons_self _ _
          have := hall b hbmem
          rw [← hab, hav] at this
          simp at this
    · rw [htw]
      intro hcontra
      exact ht1 (by rw [← List.reverse_reverse tail, hcontra]; rfl)
  constructor
  · unfold fileNameModel
    rw [hrev, hbt, htw, List.reverse_reverse]
    rw [if_neg (by push_neg; exact ⟨htne, ht2⟩)]
  · rw [hrev, hbt]

theorem path_concat_parent {P tail : List Char}
    (hP : P = [] ∨ (backTrim P.reverse = P.reverse ∧ P ≠ []))
    (hts : '/' ∉ tail) (htne : tail ≠ []) (ht1 : tail ≠ ['.']) (ht2 : tail ≠ ['.', '.']) :
    parentRaw (P ++ '/' :: tail) = some (if P = [] then ['/'] else P) := by
  have hall : ∀ a ∈ tail.reverse, (a != '/') = true := by
    intro a ha
    simp only [bne_iff_ne, ne_eq]
    intro hav
    exact hts (hav ▸ List.mem_reverse.mp ha)
  have hrev : (P ++ '/' :: tail).reverse = tail.reverse ++ '/' :: P.reverse := by
    rw [List.reverse_append, List.reverse_cons, List.append_assoc, List.singleton_append]
  have hbt := (path_concat_fileName (P := P) hts htne ht1 ht2).2
  rw [hrev] at hbt
  unfold parentRaw
  rw [hrev, hbt]
  have hne2 : tail.reverse ++ '/' :: P.reverse ≠ [] := by simp
  rw [if_neg hne2]
  have hdw : (tail.reverse ++ '/' :: P.reverse).dropWhile (· != '/') = '/' :: P.reverse := by
    rw [List.dropWhile_append_of_pos hall, List.dropWhile_cons_of_neg (by simp)]
  rw [hdw]
  have hstep : backTrim ('/' :: P.reverse) = backTrim P.reverse := rfl
  rw [hstep]
  rcases hP with hP | hP
  · subst hP
    have hz : backTrim (List.reverse ([] : List Char)) = [] := rfl
    rw [hz, if_pos rfl]
    simp
  · rw [hP.1]
    have hPne : P.reverse ≠ [] := by simpa using hP.2
    rw [if_neg hPne, List.reverse_reverse, if_neg hP.2]

theorem parentRaw_shape {p P : List Char} (h : parentRaw p = some P) :
    (P = ['/'] ∧ p.head? = some '/') ∨
    (backTrim P.reverse = P.reverse ∧ P ≠ [] ∧ P ≠ ['.'] ∧
      P.getLast? ≠ some '/' ∧ P <+: p) := by
  unfold parentRaw at h
  by_cases h1 : backTrim p.reverse = []
  · rw [if_pos h1] at h
    exact Option.noConfusion h
  · rw [if_neg h1] at h
    by_cases h2 : backTrim ((backTrim p.reverse).dropWhile (· != '/')) = []
    · rw [if_pos h2] at h
      by_cases h3 : p.head? == some '/'
      · rw [if_pos h3] at h
        left
        exact ⟨(Option.some.inj h).symm, by simpa using h3⟩
      · rw [if_neg h3] at h
        exact Option.noConfusion h
    · rw [if_neg h2] at h
      right
      set rest := backTrim ((backTrim p.reverse).dropWhile (· != '/')) with hrest
      have hP : P = rest.reverse := (Option.some.inj h).symm
      have hfix : backTrim rest = rest := by rw [hrest]; exact backTrim_idem _
      have hsuf : rest <:+ p.reverse := by
        have s1 : rest <:+ (backTrim p.reverse).dropWhile (· != '/') := by
          rw [hrest]; exact backTrim_suffix _
        have s2 : (backTrim p.reverse).dropWhile (· != '/') <:+ backTrim p.reverse :=
          List.dropWhile_suffix _
        have s3 : backTrim p.reverse <:+ p.reverse := backTrim_suffix _
        exact (s1.trans s2).trans s3
      refine ⟨by rw [hP, List.reverse_reverse, hfix], ?_, ?_, ?_, ?_⟩
      · rw [hP]
        simpa using h2
      · intro hdot
        have : rest = ['.'] := by
          rw [hP] at hdot
          rw [← List.reverse_reverse rest, hdot]
          rfl
        have hnd := backTrim_notdot ((backTrim p.reverse).dropWhile (· != '/'))
        rw [← hrest, this] at hnd
        simp at hnd
      · rw [hP, List.getLast?_reverse]
        intro hhd
        rw [hrest] at hhd
        exact backTrim_head _ '/' hhd rfl
      · rw [hP]
        have := List.reverse_prefix.mpr hsuf
        rwa [List.reverse_reverse] at this

theorem pushOnto_root (base : List Char) : pushOnto ['/'] base = '/' :: base := by
  unfold pushOnto
  rw [if_neg (by simp), if_pos (by rfl)]
  rfl

theorem pushOnto_nonroot {P : List Char} (base : List Char) (hne : P ≠ [])
    (hl : P.getLast? ≠ some '/') : pushOnto P base = P ++ '/' :: base := by
  unfold pushOnto
  rw [if_neg hne, if_neg (by simpa using hl)]

theorem rename_path_dry (oldp newp : List Char) (fs : List Char → Bool)
    (fails : List Char → List Char → Bool) :
    ∃ outp ev, rename_path oldp newp true fs fails = .ok (outp, [ev], fs) ∧
      ev.isRenamed = false := by
  unfold rename_path
  by_cases h1 : oldp = newp
  · exact ⟨newp, .unchanged oldp, by rw [if_pos h1], rfl⟩
  · rw [if_neg h1]
    by_cases h2 : fs oldp = false
    · exact ⟨oldp, .missing oldp, by rw [if_pos h2], rfl⟩
    · rw [if_neg h2]
      by_cases h3 : fs newp = true ∧ oldp ≠ newp
      · exact ⟨oldp, .collision oldp newp, by rw [if_pos h3], rfl⟩
      · exact ⟨newp, .change oldp newp true, by rw [if_neg h3, if_pos rfl], rfl⟩

mutual
theorem walkNode_dry (r : Char) (mode : SanitizeMode) (node : FNode) :
    ∀ (path : List Char) (fs : List Char → Bool) (fails : List Char → List Char → Bool),
    ∃ outp evs, walkNode true r mode path node fs fails = .ok (outp, evs, fs) ∧
      (∀ e ∈ evs, e.isRenamed = false) ∧ evs.length = sizeN node := by
  intro path fs fails
  cases node with
  | leaf sym statd =>
      obtain ⟨outp, ev, heq, hev⟩ :=
        rename_path_dry path (sanitized_filename (fun _ => statd) path r mode) fs fails
      refine ⟨outp, [ev], ?_, ?_, rfl⟩
      · unfold walkNode
        rw [heq]
      · intro e he
        rw [List.mem_singleton.mp he]
        exact hev
  | dir children =>
      obtain ⟨evs1, hf, hev1, hlen1⟩ := walkForest_dry r mode children path fs fails
      obtain ⟨outp, ev, heq, hev⟩ :=
        rename_path_dry path (sanitized_filename (fun _ => true) path r mode) fs fails
      refine ⟨outp, evs1 ++ [ev], ?_, ?_, ?_⟩
      · unfold walkNode
        rw [hf]
        dsimp only
        rw [heq]
      · intro e he
        rcases List.mem_append.mp he with h | h
        · exact hev1 e h
        · rw [List.mem_singleton.mp h]
          exact hev
      · rw [List.length_append, hlen1]
        simp [sizeN]

theorem walkForest_dry (r : Char) (mode : SanitizeMode) (children : Forest) :
    ∀ (parent : List Char) (fs : List Char → Bool) (fails : List Char → List Char → Bool),
    ∃ evs, walkForest true r mode parent children fs fails = .ok (evs, fs) ∧
      (∀ e ∈ evs, e.isRenamed = false) ∧ evs.length = sizeF children := by
  intro parent fs fails
  cases children with
  | nil => exact ⟨[], rfl, by intro e he; exact absurd he (List.not_mem_nil e), rfl⟩
  | cons name child rest =>
      obtain ⟨o1, evs1, h1, hev1, hlen1⟩ := walkNode_dry r mode child (joinPath parent name) fs fails
      obtain ⟨evs2, h2, hev2, hlen2⟩ := walkForest_dry r mode rest parent fs fails
      refine ⟨evs1 ++ evs2, ?_, ?_, ?_⟩
      · unfold walkForest
        rw [h1]
        dsimp only
        rw [h2]
      · intro e he
        rcases List.mem_append.mp he with h | h
        · exact hev1 e h
        · exact hev2 e h
      · rw [List.length_append, hlen1, hlen2]
        rfl
end

theorem attachParent_none {input : List Char} (h : parentRaw input = none)
    (res : List Char) : attachParent input res = res := by
  unfold attachParent
  rw [h]

theorem attachParent_some {input P : List Char} (h : parentRaw input = some P)
    (res : List Char) :
    attachParent input res = if P = ['/'] then '/' :: res else P ++ '/' :: res := by
  unfold attachParent
  rw [h]
  dsimp only
  rcases parentRaw_shape h with ⟨hP, _⟩ | ⟨_, hne, hdot, hlast, _⟩
  · subst hP
    rw [if_pos (And.intro (by simp) (by simp)), if_pos rfl]
    exact pushOnto_root res
  · have hPr : P ≠ ['/'] := by
      intro hcontra
      rw [hcontra] at hlast
      exact hlast rfl
    rw [if_pos (And.intro hne hdot), if_neg hPr]
    exact pushOnto_nonroot res hne hlast

/-! ### Claim theorems -/

/-- C1 counterexample: for the path "dir/.bashrc" (not an existing
directory), whose final component is the dotfile ".bashrc", the code still
extracts the non-empty extension "bashrc" — extension detection is not
component-scoped as claimed. -/
theorem claim1_counterexample :
    extract_extension (fun _ => false) "dir/.bashrc".toList = "bashrc".toList ∧
    fileNameModel "dir/.bashrc".toList = some ".bashrc".toList ∧
    (".bashrc".toList).head? = some '.' ∧
    "bashrc".toList ≠ [] := by
  refine ⟨by decide, by decide, by decide, by decide⟩

/-- C1 (amended): extension detection is scoped to the whole path string, not
to its final component: an extension — the substring after the last `'.'` of
the entire path, which may even span a `'/'` — is extracted exactly when the
whole path string contains a `'.'`, does not begin with `'.'`, and does not
currently resolve to a directory. -/
theorem claim1_amended_path_scoped_extension (isDir : List Char → Bool) (p : List Char) :
    ('.' ∈ p → p.head? ≠ some '.' → isDir p = false →
      extract_extension isDir p = afterLastDot p ∧
      '.' ∉ extract_extension isDir p ∧
      ∃ w, p = w ++ '.' :: extract_extension isDir p) ∧
    (('.' ∉ p ∨ p.head? = some '.' ∨ isDir p = true) →
      extract_extension isDir p = []) := by
  constructor
  · intro hdot hhd hdir
    have hext : has_extension isDir p = true := by
      unfold has_extension is_hidden
      rw [has_dot_iff.mpr hdot, hdir]
      simp only [Bool.true_and, Bool.and_eq_true, Bool.not_eq_true']
      constructor
      · trivial
      · simp only [beq_eq_false_iff_ne, ne_eq]
        exact hhd
    have he : extract_extension isDir p = afterLastDot p := by
      unfold extract_extension
      rw [if_pos hext]
    refine ⟨he, ?_, ?_⟩
    · rw [he]
      exact afterLastDot_no_dot p
    · rw [he]
      exact afterLastDot_decomp hdot
  · intro h
    unfold extract_extension has_extension is_hidden
    rcases h with h | h | h
    · rw [if_neg ?_]
      intro hcontra
      simp only [Bool.and_eq_true] at hcontra
      exact h (has_dot_iff.mp hcontra.1.1)
    · rw [if_neg ?_]
      intro hcontra
      simp only [Bool.and_eq_true, Bool.not_eq_true', beq_eq_false_iff_ne, ne_eq] at hcontra
      exact hcontra.2 h
    · rw [if_neg ?_]
      intro hcontra
      simp only [Bool.and_eq_true, Bool.not_eq_true'] at hcontra
      rw [h] at hcontra
      exact Bool.noConfusion hcontra.1.2

theorem claim1_amended_witness :
    extract_extension (fun _ => false) "a.b".toList = "b".toList ∧
    ∃ w, "a.b".toList = w ++ '.' :: extract_extension (fun _ => false) "a.b".toList := by
  have h := (claim1_amended_path_scoped_extension (fun _ => false) "a.b".toList).1
    (by decide) (by decide) rfl
  refine ⟨?_, h.2.2⟩
  rw [h.1]
  decide

/-- C2 counterexample: Full-mode sanitization is not idempotent: with no path
resolving to a directory and replacement '_', sanitizing "a._a" yields
"a_a._a", and sanitizing that again yields "a_a_a._a". -/
theorem claim2_counterexample :
    sanitized_filename (fun _ => false)
        (sanitized_filename (fun _ => false) "a._a".toList '_' .Full) '_' .Full ≠
      sanitized_filename (fun _ => false) "a._a".toList '_' .Full := by
  decide

/-- C3: `rename_path` follows the decision table in order: equal paths return
the new path with no file-system action; a missing source returns the old
path; an existing destination (with distinct paths) returns the old path with
the source untouched; otherwise the new path is returned and the actual
rename happens exactly when dry-run is off.  None of the three skip
conditions produces an error value. -/
theorem claim3_rename_decision_table (oldp newp : List Char) (dry : Bool)
    (fs : List Char → Bool) (fails : List Char → List Char → Bool) :
    (oldp = newp → rename_path oldp newp dry fs fails = .ok (newp, [.unchanged oldp], fs)) ∧
    (oldp ≠ newp → fs oldp = false →
      rename_path oldp newp dry fs fails = .ok (oldp, [.missing oldp], fs)) ∧
    (oldp ≠ newp → fs oldp = true → fs newp = true →
      rename_path oldp newp dry fs fails = .ok (oldp, [.collision oldp newp], fs)) ∧
    (oldp ≠ newp → fs oldp = true → fs newp = false → dry = true →
      rename_path oldp newp dry fs fails = .ok (newp, [.change oldp newp true], fs)) ∧
    (oldp ≠ newp → fs oldp = true → fs newp = false → dry = false → fails oldp newp = false →
      ∃ fs2, rename_path oldp newp dry fs fails
          = .ok (newp, [.change oldp newp false, .renamed oldp newp], fs2) ∧
        fs2 oldp = false ∧ fs2 newp = true ∧ ∀ q, q ≠ oldp → q ≠ newp → fs2 q = fs q) := by
  refine ⟨?_, ?_, ?_, ?_, ?_⟩
  · intro h
    unfold rename_path
    rw [if_pos h]
  · intro h hf
    unfold rename_path
    rw [if_neg h, if_pos hf]
  · intro h hf hn
    unfold rename_path
    rw [if_neg h, if_neg (by simp [hf]), if_pos (And.intro hn h)]
  · intro h hf hn hd
    unfold rename_path
    rw [if_neg h, if_neg (by simp [hf]),
      if_neg (by intro hcontra; rw [hn] at hcontra; exact Bool.noConfusion hcontra.1),
      if_pos hd]
  · intro h hf hn hd hfl
    unfold rename_path
    rw [if_neg h, if_neg (by simp [hf]),
      if_neg (by intro hcontra; rw [hn] at hcontra; exact Bool.noConfusion hcontra.1),
      if_neg (by rw [hd]; exact Bool.noConfusion), if_neg (by rw [hfl]; exact Bool.noConfusion)]
    refine ⟨_, rfl, ?_, ?_, ?_⟩
    · rw [if_pos rfl]
    · rw [if_neg (Ne.symm h), if_pos rfl]
    · intro q h1 h2
      rw [if_neg h1, if_neg h2]

theorem claim3_witness :
    rename_path "x y".toList "b".toList false (fun _ => false) (fun _ _ => false)
      = .ok ("x y".toList, [.missing "x y".toList], fun _ => false) :=
  (claim3_rename_decision_table "x y".toList "b".toList false (fun _ => false)
    (fun _ _ => false)).2.1 (by decide) rfl

/-- C4: the recursive tree walk is post-order with symlink-safe
classification: for a real directory, the events of its whole child listing
(each child fully processed in order — real subdirectories recursively,
everything else, including symlinks, renamed as a leaf without recursion)
come before the directory's own rename events, and a symlink node is
processed exactly like a plain leaf rename. -/
theorem claim4_postorder_symlink_safe (dry : Bool) (r : Char) (mode : SanitizeMode)
    (path : List Char) (fs : List Char → Bool) (fails : List Char → List Char → Bool) :
    (∀ cs out evs fs2, walkNode dry r mode path (.dir cs) fs fails = .ok (out, evs, fs2) →
      ∃ evC fsC evs2,
        walkForest dry r mode path cs fs fails = .ok (evC, fsC) ∧
        rename_path path (sanitized_filename (fun _ => true) path r mode) dry fsC fails
          = .ok (out, evs2, fs2) ∧
        evs = evC ++ evs2) ∧
    (∀ name child rest evsF fsF,
      walkForest dry r mode path (.cons name child rest) fs fails = .ok (evsF, fsF) →
      ∃ o1 evs1 fs1 evs2,
        walkNode dry r mode (joinPath path name) child fs fails = .ok (o1, evs1, fs1) ∧
        walkForest dry r mode path rest fs1 fails = .ok (evs2, fsF) ∧
        evsF = evs1 ++ evs2) ∧
    (∀ sym statd, walkNode dry r mode path (.leaf sym statd) fs fails =
      rename_path path (sanitized_filename (fun _ => statd) path r mode) dry fs fails) := by
  refine ⟨?_, ?_, ?_⟩
  · intro cs out evs fs2 h
    unfold walkNode at h
    cases hF : walkForest dry r mode path cs fs fails with
    | error e =>
        rw [hF] at h
        exact Except.noConfusion h
    | ok vF =>
        obtain ⟨evC, fsC⟩ := vF
        rw [hF] at h
        dsimp only at h
        cases hR : rename_path path (sanitized_filename (fun _ => true) path r mode)
            dry fsC fails with
        | error e =>
            rw [hR] at h
            exact Except.noConfusion h
        | ok vR =>
            obtain ⟨o2, evs2, fs2'⟩ := vR
            rw [hR] at h
            dsimp only at h
            have h2 := Except.ok.inj h
            obtain ⟨ho, hev, hfs⟩ : o2 = out ∧ evC ++ evs2 = evs ∧ fs2' = fs2 := by
              refine ⟨congrArg Prod.fst h2, ?_, ?_⟩
              · have := congrArg Prod.snd h2
                exact congrArg Prod.fst this
              · have := congrArg Prod.snd h2
                exact congrArg Prod.snd this
            subst ho hfs
            exact ⟨evC, fsC, evs2, rfl, hR, hev.symm⟩
  · intro name child rest evsF fsF h
    unfold walkForest at h
    cases hN : walkNode dry r mode (joinPath path name) child fs fails with
    | error e =>
        rw [hN] at h
        exact Except.noConfusion h
    | ok vN =>
        obtain ⟨o1, evs1, fs1⟩ := vN
        rw [hN] at h
        dsimp only at h
        cases hR : walkForest dry r mode path rest fs1 fails with
        | error e =>
            rw [hR] at h
            exact Except.noConfusion h
        | ok vR =>
            obtain ⟨evs2, fs2⟩ := vR
            rw [hR] at h
            dsimp only at h
            have h2 := Except.ok.inj h
            have hev : evs1 ++ evs2 = evsF := congrArg Prod.fst h2
            have hfs : fs2 = fsF := congrArg Prod.snd h2
            subst hfs
            exact ⟨o1, evs1, fs1, evs2, rfl, hR, hev.symm⟩
  · intro sym statd
    rfl

theorem claim4_witness :
    ∃ evC fsC evs2,
      walkForest true '_' .Legacy "d".toList
          (.cons "a b".toList (.leaf false false) .nil) (fun _ => true)
          (fun _ _ => false) = .ok (evC, fsC) ∧
      rename_path "d".toList
          (sanitized_filename (fun _ => true) "d".toList '_' .Legacy) true fsC
          (fun _ _ => false)
        = .ok ("d".toList, evs2, fun _ => true) ∧
      [Event.collision "d/a b".toList "d/a_b".toList, Event.unchanged "d".toList]
        = evC ++ evs2 :=
  (claim4_postorder_symlink_safe true '_' .Legacy "d".toList (fun _ => true)
      (fun _ _ => false)).1
    (.cons "a b".toList (.leaf false false) .nil) "d".toList
    [Event.collision "d/a b".toList "d/a_b".toList, Event.unchanged "d".toList]
    (fun _ => true) rfl

/-- C5: a dry-run walk mutates nothing: on any existing tree it succeeds,
returns the existence oracle unchanged (zero renames are performed), emits no
rename action, and emits exactly one report line per node of the tree. -/
theorem claim5_dry_run_walk (r : Char) (mode : SanitizeMode) (node : FNode)
    (path : List Char) (fs : List Char → Bool) (fails : List Char → List Char → Bool) :
    ∃ outp evs, sanitize_directory_tree (some node) path true r mode fs fails
        = .ok (outp, evs, fs) ∧
      (∀ e ∈ evs, e.isRenamed = false) ∧ evs.length = sizeN node :=
  walkNode_dry r mode node path fs fails

theorem claim5_witness :
    ∃ outp evs,
      sanitize_directory_tree (some (.dir (.cons "a b".toList (.leaf false false) .nil)))
          "d".toList true '_' .Legacy (fun _ => true) (fun _ _ => false)
        = .ok (outp, evs, fun _ => true) ∧
      (∀ e ∈ evs, e.isRenamed = false) ∧
      evs.length = sizeN (.dir (.cons "a b".toList (.leaf false false) .nil)) :=
  claim5_dry_run_walk '_' .Legacy (.dir (.cons "a b".toList (.leaf false false) .nil))
    "d".toList (fun _ => true) (fun _ _ => false)

/-- C6 counterexample: the Legacy mapping pass sends the multiplication sign
'×' to the letter 'x', not to the replacement character. -/
theorem claim6_counterexample :
    mapChar .Legacy '_' '×' = 'x' ∧ mapChar .Legacy '_' '×' ≠ '_' := by
  constructor
  · decide
  · decide

/-- C6 (amended): the Legacy mapping pass maps each block-list character to
the replacement, maps '×' to the letter 'x', maps every other character to
itself, and is a 1:1 character map (one output character per input
character, never a deletion). -/
theorem claim6_amended_legacy_map (r c : Char) (name : List Char) :
    mapChar .Legacy r c = legacySpecMap r c ∧
    (name.map (mapChar .Legacy r)).length = name.length := by
  constructor
  · unfold mapChar legacySpecMap
    by_cases h1 : c = '×'
    · simp [h1]
    · by_cases h2 : rustIsWhitespace c
      · simp [h1, h2]
      · by_cases h3 : c ∈ legacyPunct
        · simp [h1, h2, h3]
        · by_cases h4 : c ∈ legacyBrackets
          · simp [h1, h2, h3, h4]
          · simp [h1, h2, h3, h4]
  · simp

/-- C7: the sanitized base name never starts or ends with the replacement
character, except that when trimming would empty a non-empty pre-trim string
the result is exactly one replacement character. -/
theorem claim7_no_edge_replacement (name : List Char) (r : Char) (ext : List Char)
    (mode : SanitizeMode) :
    (sanitize_component name r ext mode = [r] ∨
      ((sanitize_component name r ext mode).head? ≠ some r ∧
        (sanitize_component name r ext mode).getLast? ≠ some r)) ∧
    (trimEnds r (stripExtTail r ext (collapseRuns r (name.map (mapChar mode r)))) = [] →
      stripExtTail r ext (collapseRuns r (name.map (mapChar mode r))) ≠ [] →
      sanitize_component name r ext mode = [r]) := by
  rw [sanitize_component_expand]
  by_cases hc : trimEnds r (stripExtTail r ext (collapseRuns r (name.map (mapChar mode r)))) = [] ∧
      stripExtTail r ext (collapseRuns r (name.map (mapChar mode r))) ≠ []
  · rw [if_pos hc]
    have hall := trimEnds_eq_nil_iff.mp hc.1
    have htake : (stripExtTail r ext (collapseRuns r (name.map (mapChar mode r)))).take 1 = [r] := by
      cases hc2 : stripExtTail r ext (collapseRuns r (name.map (mapChar mode r))) with
      | nil => exact absurd hc2 hc.2
      | cons a t =>
          have ha : a = r := hall a (by rw [hc2]; exact List.mem_cons_self _ _)
          rw [List.take_succ_cons, List.take_zero, ha]
    rw [htake]
    exact ⟨Or.inl rfl, fun _ _ => rfl⟩
  · rw [if_neg hc]
    constructor
    · exact Or.inr ⟨trimEnds_head r _, trimEnds_getLast r _⟩
    · intro h1 h2
      exact absurd (And.intro h1 h2) hc

theorem claim7_witness :
    sanitize_component "??".toList '_' [] .Legacy = ['_'] :=
  (claim7_no_edge_replacement "??".toList '_' [] .Legacy).2 (by decide) (by decide)

/-- C8 counterexample: the full sanitized output CAN contain a run of two
replacement characters, because the extension is reattached verbatim:
sanitizing "a.__x" yields "a_x.__x", which contains "__". -/
theorem claim8_counterexample :
    sanitized_filename (fun _ => false) "a.__x".toList '_' .Legacy = "a_x.__x".toList ∧
    ¬ noRun '_' ("a_x.__x".toList) := by
  constructor
  · decide
  · unfold noRun
    intro h
    simp only [show "a_x.__x".toList = ['a', '_', 'x', '.', '_', '_', 'x'] from rfl,
      List.chain'_cons] at h
    exact h.2.2.2.2.1 ⟨trivial, trivial⟩

/-- C8 (amended): the sanitized base name produced by `sanitize_component`
never contains two adjacent replacement characters; the full output of
`sanitized_filename` can still carry such runs only inside the verbatim
extension or the untouched parent prefix. -/
theorem claim8_amended_no_runs (name : List Char) (r : Char) (ext : List Char)
    (mode : SanitizeMode) : noRun r (sanitize_component name r ext mode) := by
  rw [sanitize_component_expand]
  by_cases hc : trimEnds r (stripExtTail r ext (collapseRuns r (name.map (mapChar mode r)))) = [] ∧
      stripExtTail r ext (collapseRuns r (name.map (mapChar mode r))) ≠ []
  · rw [if_pos hc]
    cases hc2 : stripExtTail r ext (collapseRuns r (name.map (mapChar mode r))) with
    | nil => simp [noRun]
    | cons a t =>
        rw [List.take_succ_cons, List.take_zero]
        simp [noRun]
  · rw [if_neg hc]
    have h1 : noRun r (collapseRuns r (name.map (mapChar mode r))) :=
      noRun_collapseGo r _ false
    have h2 : noRun r (stripExtTail r ext (collapseRuns r (name.map (mapChar mode r)))) :=
      List.Chain'.prefix h1 (stripExtTail_isPre r ext _)
    exact List.Chain'.infix h2 (trimEnds_within r _)

theorem sanitized_filename_congr {D D2 : List Char → Bool} {p : List Char}
    (h : D p = D2 p) (r : Char) (mode : SanitizeMode) :
    sanitized_filename D p r mode = sanitized_filename D2 p r mode := by
  unfold sanitized_filename sanitizeBase extract_extension has_extension
  rw [h]

/-- C9: the literal Legacy-mode scenarios, for any file system in which the
three input paths do not resolve to directories. -/
theorem claim9_legacy_literal_scenarios (D : List Char → Bool)
    (h1 : D "hello? &&*()#@+ world.wav".toList = false)
    (h2 : D "×".toList = false)
    (h3 : D "_Name_.md".toList = false) :
    sanitized_filename D "hello? &&*()#@+ world.wav".toList '_' .Legacy
        = "hello_@+_world.wav".toList ∧
    sanitized_filename D "×".toList '_' .Legacy = "x".toList ∧
    sanitized_filename D "_Name_.md".toList '_' .Legacy = "Name.md".toList := by
  refine ⟨?_, ?_, ?_⟩
  · rw [show sanitized_filename D "hello? &&*()#@+ world.wav".toList '_' .Legacy
        = sanitized_filename (fun _ => false) "hello? &&*()#@+ world.wav".toList '_' .Legacy from
      sanitized_filename_congr (by rw [h1]) '_' .Legacy]
    decide
  · rw [show sanitized_filename D "×".toList '_' .Legacy
        = sanitized_filename (fun _ => false) "×".toList '_' .Legacy from
      sanitized_filename_congr (by rw [h2]) '_' .Legacy]
    decide
  · rw [show sanitized_filename D "_Name_.md".toList '_' .Legacy
        = sanitized_filename (fun _ => false) "_Name_.md".toList '_' .Legacy from
      sanitized_filename_congr (by rw [h3]) '_' .Legacy]
    decide

theorem claim9_witness :
    sanitized_filename (fun _ => false) "hello? &&*()#@+ world.wav".toList '_' .Legacy
        = "hello_@+_world.wav".toList ∧
    sanitized_filename (fun _ => false) "×".toList '_' .Legacy = "x".toList ∧
    sanitized_filename (fun _ => false) "_Name_.md".toList '_' .Legacy = "Name.md".toList :=
  claim9_legacy_literal_scenarios (fun _ => false) rfl rfl rfl

/-- C10: a non-empty extracted extension is reattached verbatim and never
sanitized: the output is a prefix followed by exactly the extension
characters, and that prefix ends with the separating dot unless it is empty
(the empty case is the direct append of src/lib.rs line 346-349). -/
theorem claim10_extension_verbatim (isDir : List Char → Bool) (p : List Char)
    (r : Char) (mode : SanitizeMode) (h : extract_extension isDir p ≠ []) :
    ∃ pre, sanitized_filename isDir p r mode = pre ++ extract_extension isDir p ∧
      (pre = [] ∨ pre.getLast? = some '.') := by
  unfold sanitized_filename appendExt
  rw [if_pos h]
  by_cases hr : attachParent p (sanitizeBase isDir p r mode) ≠ []
  · rw [if_pos hr]
    refine ⟨attachParent p (sanitizeBase isDir p r mode) ++ ['.'], ?_, Or.inr ?_⟩
    · rw [List.append_assoc, List.singleton_append]
    · rw [List.getLast?_concat]
  · rw [if_neg hr]
    push_neg at hr
    rw [hr]
    exact ⟨[], rfl, Or.inl rfl⟩

theorem claim10_witness :
    ∃ pre, sanitized_filename (fun _ => false) "a b.txt".toList '_' .Legacy
        = pre ++ extract_extension (fun _ => false) "a b.txt".toList ∧
      (pre = [] ∨ pre.getLast? = some '.') :=
  claim10_extension_verbatim (fun _ => false) "a b.txt".toList '_' .Legacy (by decide)

/-! ### Further collapse-pass facts, for idempotence -/

theorem collapseGo_false_ne_nil {r : Char} {s : List Char} (h : s ≠ []) :
    collapseGo r false s ≠ [] := by
  cases s with
  | nil => exact absurd rfl h
  | cons c cs =>
      by_cases hc : c = r
      · subst hc
        have : collapseGo c false (c :: cs) = c :: collapseGo c true cs := by
          simp [collapseGo]
        rw [this]
        exact List.cons_ne_nil _ _
      · have : collapseGo r false (c :: cs) = c :: collapseGo r false cs := by
          simp [collapseGo, hc]
        rw [this]
        exact List.cons_ne_nil _ _

theorem collapseGo_getLast_r {r : Char} {s : List Char} (h : s.getLast? = some r) :
    ∀ b, collapseGo r b s = [] ∨ (collapseGo r b s).getLast? = some r := by
  induction s with
  | nil => exact absurd h (by simp)
  | cons c cs ih =>
      intro b
      cases cs with
      | nil =>
          have hc : c = r := by
            have : (c :: ([] : List Char)).getLast? = some c := rfl
            rw [this] at h
            exact Option.some.inj h
          subst hc
          cases b with
          | true => left; simp [collapseGo]
          | false => right; simp [collapseGo]
      | cons d ds =>
          rw [List.getLast?_cons_cons] at h
          by_cases hc : c = r
          · subst hc
            cases b with
            | true =>
                have hstep : collapseGo c true (c :: d :: ds) = collapseGo c true (d :: ds) := by
                  simp [collapseGo]
                rw [hstep]
                exact ih h true
            | false =>
                have hstep : collapseGo c false (c :: d :: ds) =
                    c :: collapseGo c true (d :: ds) := by
                  simp [collapseGo]
                rw [hstep]
                rcases ih h true with h2 | h2
                · right; rw [h2]; rfl
                · right
                  cases ht : collapseGo c true (d :: ds) with
                  | nil => rw [ht] at h2; exact absurd h2 (by simp)
                  | cons x xs =>
                      rw [ht] at h2
                      rw [List.getLast?_cons_cons, h2]
          · have hstep : collapseGo r b (c :: d :: ds) = c :: collapseGo r false (d :: ds) := by
              simp [collapseGo, hc]
            rw [hstep]
            right
            rcases ih h false with h2 | h2
            · exact absurd h2 (collapseGo_false_ne_nil (List.cons_ne_nil _ _))
            · cases ht : collapseGo r false (d :: ds) with
              | nil => exact absurd ht (collapseGo_false_ne_nil (List.cons_ne_nil _ _))
              | cons x xs =>
                  rw [ht] at h2
                  rw [List.getLast?_cons_cons, h2]

theorem collapseGo_getLast_ne {r cc : Char} {s : List Char} (h : s.getLast? = some cc)
    (hne : cc ≠ r) : ∀ b, (collapseGo r b s).getLast? = some cc := by
  induction s with
  | nil => exact absurd h (by simp)
  | cons c cs ih =>
      intro b
      cases cs with
      | nil =>
          have hc : c = cc := by
            have : (c :: ([] : List Char)).getLast? = some c := rfl
            rw [this] at h
            exact Option.some.inj h
          subst hc
          have hcr : c ≠ r := hne
          have hstep : collapseGo r b [c] = [c] := by
            simp [collapseGo, hcr]
          rw [hstep]
          rfl
      | cons d ds =>
          rw [List.getLast?_cons_cons] at h
          by_cases hc : c = r
          · subst hc
            cases b with
            | true =>
                have hstep : collapseGo c true (c :: d :: ds) = collapseGo c true (d :: ds) := by
                  simp [collapseGo]
                rw [hstep]
                exact ih h true
            | false =>
                have hstep : collapseGo c false (c :: d :: ds) =
                    c :: collapseGo c true (d :: ds) := by
                  simp [collapseGo]
                rw [hstep]
                have h2 := ih h true
                cases ht : collapseGo c true (d :: ds) with
                | nil => rw [ht] at h2; simp at h2
                | cons x xs =>
                    rw [ht] at h2
                    rw [List.getLast?_cons_cons]
                    exact h2
          · have hstep : collapseGo r b (c :: d :: ds) = c :: collapseGo r false (d :: ds) := by
              simp [collapseGo, hc]
            rw [hstep]
            have h2 := ih h false
            cases ht : collapseGo r false (d :: ds) with
            | nil => exact absurd ht (collapseGo_false_ne_nil (List.cons_ne_nil _ _))
            | cons x xs =>
                rw [ht] at h2
                rw [List.getLast?_cons_cons]
                exact h2

theorem dropTrailR_isPre (r : Char) (s : List Char) : dropTrailR r s <+: s := by
  unfold dropTrailR
  split
  · exact List.dropLast_prefix s
  · exact List.prefix_refl s

theorem noRun_dropTrailR {r : Char} {s : List Char} (h : noRun r s) :
    noRun r (dropTrailR r s) :=
  List.Chain'.prefix h (dropTrailR_isPre r s)

theorem dropTrailR_getLast {r : Char} {s : List Char} (hnr : noRun r s) :
    (dropTrailR r s).getLast? ≠ some r := by
  unfold dropTrailR
  split
  · rename_i hlast
    intro hcontra
    have hs : s.dropLast ++ [r] = s := List.dropLast_append_getLast? r hlast
    rw [← hs] at hnr
    unfold noRun at hnr
    have h2 := (List.chain'_append.mp hnr).2.2
    have hdl : s.dropLast.dropLast ++ [r] = s.dropLast :=
      List.dropLast_append_getLast? r hcontra
    exact h2 r hcontra r rfl ⟨rfl, rfl⟩
  · rename_i hlast
    exact hlast

theorem sanitize_component_chars (name : List Char) (r : Char) (ext : List Char)
    (mode : SanitizeMode) :
    ∀ c ∈ sanitize_component name r ext mode, ∃ c0 ∈ name, mapChar mode r c0 = c := by
  intro c hc
  rw [sanitize_component_expand] at hc
  have hsub : c ∈ name.map (mapChar mode r) := by
    have h1 : c ∈ stripExtTail r ext (collapseRuns r (name.map (mapChar mode r))) := by
      by_cases hcond : trimEnds r (stripExtTail r ext (collapseRuns r
          (name.map (mapChar mode r)))) = [] ∧
          stripExtTail r ext (collapseRuns r (name.map (mapChar mode r))) ≠ []
      · rw [if_pos hcond] at hc
        exact (List.take_prefix 1 _).sublist.subset hc
      · rw [if_neg hcond] at hc
        exact (trimEnds_within r _).sublist.subset hc
    have h2 : c ∈ collapseRuns r (name.map (mapChar mode r)) :=
      (stripExtTail_isPre r ext _).sublist.subset h1
    exact (collapseGo_sublist r _ false).subset h2
  obtain ⟨c0, hc0, hmap⟩ := List.mem_map.mp hsub
  exact ⟨c0, hc0, hmap⟩

theorem sanitize_component_noRun (name : List Char) (r : Char) (ext : List Char)
    (mode : SanitizeMode) : noRun r (sanitize_component name r ext mode) := by
  rw [sanitize_component_expand]
  by_cases hc : trimEnds r (stripExtTail r ext (collapseRuns r (name.map (mapChar mode r)))) = [] ∧
      stripExtTail r ext (collapseRuns r (name.map (mapChar mode r))) ≠ []
  · rw [if_pos hc]
    cases hc2 : stripExtTail r ext (collapseRuns r (name.map (mapChar mode r))) with
    | nil => simp [noRun]
    | cons a t =>
        rw [List.take_succ_cons, List.take_zero]
        simp [noRun]
  · rw [if_neg hc]
    have h1 : noRun r (collapseRuns r (name.map (mapChar mode r))) :=
      noRun_collapseGo r _ false
    have h2 : noRun r (stripExtTail r ext (collapseRuns r (name.map (mapChar mode r)))) :=
      List.Chain'.prefix h1 (stripExtTail_isPre r ext _)
    exact List.Chain'.infix h2 (trimEnds_within r _)

theorem sanitize_component_edges (name : List Char) (r : Char) (ext : List Char)
    (mode : SanitizeMode) :
    sanitize_component name r ext mode = [r] ∨
      ((sanitize_component name r ext mode).head? ≠ some r ∧
        (sanitize_component name r ext mode).getLast? ≠ some r) := by
  rw [sanitize_component_expand]
  by_cases hc : trimEnds r (stripExtTail r ext (collapseRuns r (name.map (mapChar mode r)))) = [] ∧
      stripExtTail r ext (collapseRuns r (name.map (mapChar mode r))) ≠ []
  · rw [if_pos hc]
    have hall := trimEnds_eq_nil_iff.mp hc.1
    cases hc2 : stripExtTail r ext (collapseRuns r (name.map (mapChar mode r))) with
    | nil => exact absurd hc2 hc.2
    | cons a t =>
        have ha : a = r := hall a (by rw [hc2]; exact List.mem_cons_self _ _)
        rw [List.take_succ_cons, List.take_zero, ha]
        exact Or.inl rfl
  · rw [if_neg hc]
    exact Or.inr ⟨trimEnds_head r _, trimEnds_getLast r _⟩

theorem sanitize_component_ne_nil {name : List Char} {r : Char} (mode : SanitizeMode)
    (h : name ≠ []) : sanitize_component name r [] mode ≠ [] := by
  rw [sanitize_component_expand]
  have hmap : name.map (mapChar mode r) ≠ [] := by
    intro hcontra
    exact h (List.map_eq_nil_iff.mp hcontra)
  have hcol : collapseRuns r (name.map (mapChar mode r)) ≠ [] :=
    collapseGo_false_ne_nil hmap
  rw [stripExtTail_nil]
  by_cases hc : trimEnds r (collapseRuns r (name.map (mapChar mode r))) = [] ∧
      collapseRuns r (name.map (mapChar mode r)) ≠ []
  · rw [if_pos hc]
    cases hc2 : collapseRuns r (name.map (mapChar mode r)) with
    | nil => exact absurd hc2 hcol
    | cons a t =>
        rw [List.take_succ_cons, List.take_zero]
        exact List.cons_ne_nil _ _
  · rw [if_neg hc]
    intro hcontra
    exact hc ⟨hcontra, hcol⟩

/-- Sanitizing an already-sanitized name again (without extension) returns it
unchanged, provided the mapping pass fixes it, it has no replacement runs,
and it has the edge shape that `sanitize_component` outputs. -/
theorem sanitize_noext_again {r : Char} {B : List Char} {mode : SanitizeMode}
    (hfix : ∀ c ∈ B, mapChar mode r c = c)
    (hnr : noRun r B)
    (hshape : B = [r] ∨ (B.head? ≠ some r ∧ B.getLast? ≠ some r)) :
    sanitize_component B r [] mode = B := by
  rw [sanitize_component_expand]
  rw [map_eq_self_of_fixes hfix]
  have hcol : collapseRuns r B = B :=
    collapseGo_eq_self hnr false (by intro hff; exact Bool.noConfusion hff)
  rw [stripExtTail_nil, hcol]
  rcases hshape with hB | hB
  · subst hB
    have htr : trimEnds r [r] = [] := trimEnds_eq_nil_iff.mpr (by
      intro c hc
      exact List.mem_singleton.mp hc)
    rw [if_pos ⟨htr, List.cons_ne_nil _ _⟩]
    rfl
  · have htr : trimEnds r B = B := trimEnds_eq_self hB.1 hB.2
    rw [htr]
    by_cases hBn : B = []
    · subst hBn
      rw [if_neg (by intro hcontra; exact hcontra.2 rfl)]
    · rw [if_neg (by intro hcontra; exact hBn hcontra.1)]

theorem mapChar_full_dot (r : Char) : mapChar .Full r '.' = r := by
  show (if fullKeep '.' then '.' else r) = r
  rw [if_neg (by decide)]

/-- The first Full-mode pass on a name `w ++ '.' :: e` sanitized against the
extension `e` itself: the mapping pass turns the separating dot into the
replacement, the collapse pass merges it with any trailing replacement of
`w`'s image, the suffix strip removes `replacement ++ e`, and the edge trim
yields an edge-free base (never the single-replacement special case). -/
theorem sanitize_full_ext {r : Char} (w : List Char) {e : List Char}
    (he : e ≠ [])
    (hfixe : ∀ c ∈ e, fullKeep c = true ∨ c = r)
    (hh : e.head? ≠ some r)
    (hnr : noRun r e) :
    sanitize_component (w ++ '.' :: e) r e .Full =
      trimEnds r (dropTrailR r (collapseRuns r (w.map (mapChar .Full r)))) := by
  have hmape : e.map (mapChar .Full r) = e :=
    map_eq_self_of_fixes (fun c hc => mapChar_full_fixes (hfixe c hc))
  have hmap : (w ++ '.' :: e).map (mapChar .Full r)
      = w.map (mapChar .Full r) ++ r :: e := by
    rw [List.map_append, List.map_cons, mapChar_full_dot, hmape]
  have hcole : collapseGo r true e = e := collapseGo_eq_self hnr true (fun _ => hh)
  have hcol : collapseRuns r (w.map (mapChar .Full r) ++ r :: e)
      = dropTrailR r (collapseRuns r (w.map (mapChar .Full r))) ++ r :: e := by
    unfold collapseRuns
    rw [collapseGo_append]
    cases hf : endFlag r false (w.map (mapChar .Full r)) with
    | true =>
        have hXr : collapseGo r true (r :: e) = e := by
          have : collapseGo r true (r :: e) = collapseGo r true e := by
            simp [collapseGo]
          rw [this, hcole]
        rw [hXr]
        have hMne : w.map (mapChar .Full r) ≠ [] := by
          intro hcontra
          unfold endFlag at hf
          rw [hcontra] at hf
          exact Bool.noConfusion hf
        have hMlast : (w.map (mapChar .Full r)).getLast? = some r := by
          unfold endFlag at hf
          cases hgl : (w.map (mapChar .Full r)).getLast? with
          | none => rw [hgl] at hf; exact absurd hf (by simp)
          | some cc =>
              rw [hgl] at hf
              have : cc = r := by simpa using hf
              rw [this]
        have hcwlast : (collapseGo r false (w.map (mapChar .Full r))).getLast? = some r := by
          rcases collapseGo_getLast_r hMlast false with h2 | h2
          · exact absurd h2 (collapseGo_false_ne_nil hMne)
          · exact h2
        have hdrop : dropTrailR r (collapseGo r false (w.map (mapChar .Full r)))
            = (collapseGo r false (w.map (mapChar .Full r))).dropLast := by
          unfold dropTrailR
          rw [if_pos hcwlast]
        rw [hdrop]
        have hsplit : (collapseGo r false (w.map (mapChar .Full r))).dropLast ++ [r]
            = collapseGo r false (w.map (mapChar .Full r)) :=
          List.dropLast_append_getLast? r hcwlast
        calc collapseGo r false (w.map (mapChar .Full r)) ++ e
            = ((collapseGo r false (w.map (mapChar .Full r))).dropLast ++ [r]) ++ e := by
              rw [hsplit]
          _ = (collapseGo r false (w.map (mapChar .Full r))).dropLast ++ r :: e := by
              rw [List.append_assoc, List.singleton_append]
    | false =>
        have hXr : collapseGo r false (r :: e) = r :: e := by
          have hstep : collapseGo r false (r :: e) = r :: collapseGo r true e := by
            simp [collapseGo]
          rw [hstep, hcole]
        rw [hXr]
        have hcwlast : (collapseGo r false (w.map (mapChar .Full r))).getLast? ≠ some r := by
          unfold endFlag at hf
          cases hgl : (w.map (mapChar .Full r)).getLast? with
          | none =>
              have hM : w.map (mapChar .Full r) = [] := List.getLast?_eq_none_iff.mp hgl
              rw [hM]
              intro hcontra
              exact absurd hcontra (by simp [collapseGo])
          | some cc =>
              rw [hgl] at hf
              have hcc : cc ≠ r := by simpa using hf
              rw [collapseGo_getLast_ne hgl hcc false]
              simp [hcc]
        have hdrop : dropTrailR r (collapseGo r false (w.map (mapChar .Full r)))
            = collapseGo r false (w.map (mapChar .Full r)) := by
          unfold dropTrailR
          rw [if_neg hcwlast]
        rw [hdrop]
  rw [sanitize_component_expand, hmap, hcol]
  have hstrip : stripExtTail r e
      (dropTrailR r (collapseRuns r (w.map (mapChar .Full r))) ++ r :: e)
      = dropTrailR r (collapseRuns r (w.map (mapChar .Full r))) :=
    stripExtTail_of_suffix he rfl
  rw [hstrip]
  have hnotr : (dropTrailR r (collapseRuns r (w.map (mapChar .Full r)))).getLast? ≠ some r :=
    dropTrailR_getLast (noRun_collapseGo r _ false)
  rw [if_neg ?_]
  intro hcontra
  have hall := trimEnds_eq_nil_iff.mp hcontra.1
  cases hgl : (dropTrailR r (collapseRuns r (w.map (mapChar .Full r)))).getLast? with
  | none => exact hcontra.2 (List.getLast?_eq_none_iff.mp hgl)
  | some a =>
      have ha : a = r := hall a (List.mem_of_getLast?_eq_some hgl)
      rw [ha] at hgl
      exact hnotr hgl

/-- Re-sanitizing `B ++ '.' :: e` in Full mode against extension `e` yields
`B` back, when `B` is an already-sanitized edge-free base. -/
theorem sanitize_full_ext_again {r : Char} {B e : List Char}
    (he : e ≠ [])
    (hfixe : ∀ c ∈ e, fullKeep c = true ∨ c = r)
    (hh : e.head? ≠ some r)
    (hnr : noRun r e)
    (hfixB : ∀ c ∈ B, mapChar .Full r c = c)
    (hnrB : noRun r B)
    (hheadB : B.head? ≠ some r)
    (hlastB : B.getLast? ≠ some r) :
    sanitize_component (B ++ '.' :: e) r e .Full = B := by
  rw [sanitize_full_ext B he hfixe hh hnr]
  rw [map_eq_self_of_fixes hfixB]
  have hcol : collapseRuns r B = B :=
    collapseGo_eq_self hnrB false (by intro hff; exact Bool.noConfusion hff)
  rw [hcol]
  have hdrop : dropTrailR r B = B := by
    unfold dropTrailR
    rw [if_neg hlastB]
  rw [hdrop]
  exact trimEnds_eq_self hheadB hlastB

theorem extract_ne_facts {D : List Char → Bool} {p : List Char}
    (h : extract_extension D p ≠ []) :
    extract_extension D p = afterLastDot p ∧ '.' ∈ p ∧ p.head? ≠ some '.' ∧
      D p = false ∧ '.' ∉ extract_extension D p ∧
      ∃ w, p = w ++ '.' :: extract_extension D p := by
  have hext : has_extension D p = true := by
    by_cases hc : has_extension D p = true
    · exact hc
    · exfalso
      apply h
      unfold extract_extension
      rw [if_neg hc]
  have he : extract_extension D p = afterLastDot p := by
    unfold extract_extension
    rw [if_pos hext]
  unfold has_extension at hext
  simp only [Bool.and_eq_true, Bool.not_eq_true'] at hext
  obtain ⟨⟨hdot, hdir⟩, hhid⟩ := hext
  have hdotmem : '.' ∈ p := has_dot_iff.mp hdot
  refine ⟨he, hdotmem, ?_, hdir, ?_, ?_⟩
  · unfold is_hidden at hhid
    simpa using hhid
  · rw [he]
    exact afterLastDot_no_dot p
  · rw [he]
    exact afterLastDot_decomp hdotmem

theorem sanitized_filename_nil (D : List Char → Bool) (r : Char) (mode : SanitizeMode) :
    sanitized_filename D [] r mode = [] := by
  have hext : extract_extension D [] = [] := by
    unfold extract_extension has_extension
    rw [if_neg ?_]
    intro hcontra
    simp only [Bool.and_eq_true] at hcontra
    have : has_dot [] = false := rfl
    rw [this] at hcontra
    exact Bool.noConfusion hcontra.1.1
  unfold sanitized_filename
  rw [hext]
  have hfn : fileNameModel [] = none := rfl
  have hpr : parentRaw [] = none := rfl
  unfold sanitizeBase
  rw [hext, hfn, attachParent_none hpr]
  have hsan : sanitize_component (Option.getD none []) r [] mode = [] := rfl
  rw [hsan]
  rfl

theorem appendExt_nil (x : List Char) : appendExt [] x = x := by
  unfold appendExt
  rw [if_neg (by simp)]

theorem appendExt_cons {e : List Char} (he : e ≠ []) {x : List Char} (hx : x ≠ []) :
    appendExt e x = x ++ '.' :: e := by
  unfold appendExt
  rw [if_pos he, if_pos hx]

theorem appendExt_of_nil {e : List Char} (he : e ≠ []) : appendExt e [] = e := by
  unfold appendExt
  rw [if_pos he, if_neg (by simp)]
  rfl

theorem head?_append_left {B : List Char} (y : List Char) (h : B ≠ []) :
    (B ++ y).head? = B.head? := by
  cases B with
  | nil => exact absurd rfl h
  | cons c cs => rfl

theorem head?_of_isPre {P p : List Char} (h : P <+: p) (hne : P ≠ []) :
    p.head? = P.head? := by
  obtain ⟨t, ht⟩ := h
  rw [← ht]
  exact head?_append_left t hne

theorem has_dot_false_not_mem {p : List Char} (h : has_dot p = false) : '.' ∉ p := by
  intro hm
  rw [has_dot_iff.mpr hm] at h
  exact Bool.noConfusion h

theorem extract_eq_nil_of_nodot (D2 : List Char → Bool) {q : List Char} (h : '.' ∉ q) :
    extract_extension D2 q = [] := by
  unfold extract_extension has_extension
  rw [if_neg ?_]
  intro hcontra
  simp only [Bool.and_eq_true] at hcontra
  exact h (has_dot_iff.mp hcontra.1.1)

theorem extract_eq_nil_of_hidden (D2 : List Char → Bool) {q : List Char}
    (h : q.head? = some '.') : extract_extension D2 q = [] := by
  unfold extract_extension has_extension is_hidden
  rw [if_neg ?_]
  intro hcontra
  simp only [Bool.and_eq_true, Bool.not_eq_true'] at hcontra
  rw [h] at hcontra
  simp at hcontra

theorem extract_of_append_ext (D2 : List Char → Bool) {X e : List Char}
    (_he : e ≠ []) (hdot : '.' ∉ e)
    (hhd : (X ++ '.' :: e).head? ≠ some '.')
    (hD : D2 (X ++ '.' :: e) = false) :
    extract_extension D2 (X ++ '.' :: e) = e := by
  unfold extract_extension
  rw [if_pos ?_]
  · exact afterLastDot_append hdot
  · unfold has_extension is_hidden
    rw [has_dot_iff.mpr (by
      rw [List.mem_append]
      exact Or.inr (List.mem_cons_self _ _)), hD]
    have hb : ((X ++ '.' :: e).head? == some '.') = false := by
      simp only [beq_eq_false_iff_ne, ne_eq]
      exact hhd
    rw [hb]
    rfl

theorem fileNameModel_facts {p t : List Char} (h : fileNameModel p = some t) :
    t ≠ [] ∧ '/' ∉ t ∧ t ≠ ['.'] ∧ t ≠ ['.', '.'] := by
  unfold fileNameModel at h
  by_cases hc : ((backTrim p.reverse).takeWhile (· != '/')).reverse = [] ∨
      ((backTrim p.reverse).takeWhile (· != '/')).reverse = ['.', '.']
  · rw [if_pos hc] at h
    exact Option.noConfusion h
  · rw [if_neg hc] at h
    have ht : t = ((backTrim p.reverse).takeWhile (· != '/')).reverse :=
      (Option.some.inj h).symm
    push_neg at hc
    refine ⟨ht ▸ hc.1, ?_, ?_, ht ▸ hc.2⟩
    · rw [ht]
      intro hm
      have h2 := List.mem_takeWhile_imp (List.mem_reverse.mp hm)
      simp at h2
    · rw [ht]
      intro hdot
      apply backTrim_notdot p.reverse
      rw [← List.reverse_reverse ((backTrim p.reverse).takeWhile (· != '/')), hdot]
      rfl

theorem fileNameModel_of_ext {p w e : List Char} (hdec : p = w ++ '.' :: e) (he : e ≠ [])
    (hdot : '.' ∉ e) (hslash : '/' ∉ e) :
    fileNameModel p = some ((w.reverse.takeWhile (· != '/')).reverse ++ '.' :: e) ∧
    '/' ∉ (w.reverse.takeWhile (· != '/')).reverse := by
  subst hdec
  have hallE : ∀ a ∈ e.reverse, (a != '/') = true := by
    intro a ha
    simp only [bne_iff_ne, ne_eq]
    intro hav
    exact hslash (hav ▸ List.mem_reverse.mp ha)
  have hrev : (w ++ '.' :: e).reverse = e.reverse ++ '.' :: w.reverse := by
    rw [List.reverse_append, List.reverse_cons, List.append_assoc, List.singleton_append]
  have htw : (e.reverse ++ '.' :: w.reverse).takeWhile (· != '/')
      = e.reverse ++ '.' :: w.reverse.takeWhile (· != '/') := by
    rw [List.takeWhile_append_of_pos hallE, List.takeWhile_cons_of_pos (by decide)]
  have hbt : backTrim ((w ++ '.' :: e).reverse) = (w ++ '.' :: e).reverse := by
    rw [hrev]
    apply backTrim_eq_self
    · intro a ha hav
      cases hel : e.reverse with
      | nil => exact he (by rw [← List.reverse_reverse e, hel]; rfl)
      | cons b bs =>
          rw [hel, List.cons_append, List.head?_cons] at ha
          have hab : a = b := (Option.some.inj ha).symm
          have hbmem : b ∈ e.reverse := by rw [hel]; exact List.mem_cons_self _ _
          have h2 := hallE b hbmem
          rw [← hab, hav] at h2
          simp at h2
    · rw [htw]
      intro hcontra
      have hl := congrArg List.length hcontra
      simp at hl
      have hepos : 0 < e.length := List.length_pos.mpr he
      omega
  have hcomp : ((e.reverse ++ '.' :: w.reverse.takeWhile (· != '/'))).reverse
      = (w.reverse.takeWhile (· != '/')).reverse ++ '.' :: e := by
    rw [List.reverse_append, List.reverse_cons, List.append_assoc, List.singleton_append,
      List.reverse_reverse]
  constructor
  · unfold fileNameModel
    rw [hbt]
    rw [hrev, htw, hcomp]
    rw [if_neg ?_]
    push_neg
    constructor
    · intro hcontra
      have hl := congrArg List.length hcontra
      simp at hl
    · intro hcontra
      have hl := congrArg List.length hcontra
      simp only [List.length_append, List.length_cons, List.length_nil] at hl
      have hepos : 0 < e.length := List.length_pos.mpr he
      have hB0 : (w.reverse.takeWhile (· != '/')).reverse.length = 0 := by omega
      have hBnil : (w.reverse.takeWhile (· != '/')).reverse = [] :=
        List.eq_nil_of_length_eq_zero hB0
      rw [hBnil, List.nil_append] at hcontra
      have hecons : e = ['.'] := by
        injection hcontra with h1 h2
      exact hdot (by rw [hecons]; exact List.mem_singleton.mpr rfl)
  · intro hm
    have h2 := List.mem_takeWhile_imp (List.mem_reverse.mp hm)
    simp at h2

theorem fileNameModel_subset {p t : List Char} (h : fileNameModel p = some t) :
    ∀ c ∈ t, c ∈ p := by
  unfold fileNameModel at h
  by_cases hc : ((backTrim p.reverse).takeWhile (· != '/')).reverse = [] ∨
      ((backTrim p.reverse).takeWhile (· != '/')).reverse = ['.', '.']
  · rw [if_pos hc] at h
    exact Option.noConfusion h
  · rw [if_neg hc] at h
    have ht : t = ((backTrim p.reverse).takeWhile (· != '/')).reverse :=
      (Option.some.inj h).symm
    intro c hcm
    rw [ht] at hcm
    have h1 : c ∈ (backTrim p.reverse).takeWhile (· != '/') := List.mem_reverse.mp hcm
    have h2 : c ∈ backTrim p.reverse := (List.takeWhile_prefix _).sublist.subset h1
    have h3 : c ∈ p.reverse := (backTrim_suffix p.reverse).sublist.subset h2
    exact List.mem_reverse.mp h3

theorem fileNameModel_none_no_dot {p : List Char} (h : fileNameModel p = none)
    (hdot : '.' ∉ p) : backTrim p.reverse = [] ∧ parentRaw p = none := by
  unfold fileNameModel at h
  by_cases hc : ((backTrim p.reverse).takeWhile (· != '/')).reverse = [] ∨
      ((backTrim p.reverse).takeWhile (· != '/')).reverse = ['.', '.']
  · have hbt : backTrim p.reverse = [] := by
      rcases hc with hc | hc
      · have htw : (backTrim p.reverse).takeWhile (· != '/') = [] := by
          rw [← List.reverse_reverse ((backTrim p.reverse).takeWhile (· != '/')), hc]
          rfl
        cases hb : backTrim p.reverse with
        | nil => rfl
        | cons c cs =>
            rw [hb] at htw
            by_cases hcv : c = '/'
            · exact absurd hcv (backTrim_head p.reverse c (by rw [hb]; rfl))
            · rw [List.takeWhile_cons_of_pos (by simp [hcv])] at htw
              exact absurd htw (List.cons_ne_nil _ _)
      · exfalso
        have hdm : '.' ∈ ((backTrim p.reverse).takeWhile (· != '/')).reverse := by
          rw [hc]
          exact List.mem_cons_self _ _
        have h1 : '.' ∈ (backTrim p.reverse).takeWhile (· != '/') := List.mem_reverse.mp hdm
        have h2 : '.' ∈ backTrim p.reverse := (List.takeWhile_prefix _).sublist.subset h1
        have h3 : '.' ∈ p.reverse := (backTrim_suffix p.reverse).sublist.subset h2
        exact hdot (List.mem_reverse.mp h3)
    refine ⟨hbt, ?_⟩
    unfold parentRaw
    rw [hbt, if_pos rfl]
  · rw [if_neg hc] at h
    exact Option.noConfusion h

/-- Re-running `sanitized_filename` on a rebuilt path whose final component is
an already-sanitized extension-free base gives it back unchanged. -/
theorem sanitized_fix_noext (D2 : List Char → Bool) {q B P : List Char} {r : Char}
    {mode : SanitizeMode}
    (hBne : B ≠ []) (hBslash : '/' ∉ B) (hBdot : '.' ∉ B)
    (hfixB : ∀ c ∈ B, mapChar mode r c = c)
    (hnrB : noRun r B)
    (hedge : B = [r] ∨ (B.head? ≠ some r ∧ B.getLast? ≠ some r))
    (hshape : q = B ∨ q = '/' :: B ∨
      (q = P ++ '/' :: B ∧ backTrim P.reverse = P.reverse ∧ P ≠ [] ∧ P ≠ ['.']))
    (hext2 : extract_extension D2 q = []) :
    sanitized_filename D2 q r mode = q := by
  have hB1 : B ≠ ['.'] := by
    intro hcontra
    exact hBdot (by rw [hcontra]; exact List.mem_singleton.mpr rfl)
  have hB2 : B ≠ ['.', '.'] := by
    intro hcontra
    exact hBdot (by rw [hcontra]; exact List.mem_cons_self _ _)
  have hagain : sanitize_component B r [] mode = B := sanitize_noext_again hfixB hnrB hedge
  rcases hshape with hq | hq | ⟨hq, hfixP, hPne, hPdot⟩
  · rw [hq] at hext2 ⊢
    have hfn : fileNameModel B = some B := fileNameModel_noslash hBslash hBne hB1 hB2
    have hpr : parentRaw B = none := parentRaw_noslash hBslash hBne hB1
    unfold sanitized_filename sanitizeBase
    rw [hext2, hfn]
    have hgd : (some B).getD [] = B := rfl
    rw [hgd, hagain, attachParent_none hpr, appendExt_nil]
  · rw [hq] at hext2 ⊢
    have hcons : '/' :: B = [] ++ '/' :: B := rfl
    have hfn : fileNameModel ('/' :: B) = some B := by
      rw [hcons]
      exact (path_concat_fileName hBslash hBne hB1 hB2).1
    have hpr : parentRaw ('/' :: B) = some ['/'] := by
      rw [hcons]
      have := path_concat_parent (P := []) (Or.inl rfl) hBslash hBne hB1 hB2
      rw [if_pos rfl] at this
      exact this
    unfold sanitized_filename sanitizeBase
    rw [hext2, hfn]
    have hgd : (some B).getD [] = B := rfl
    rw [hgd, hagain, attachParent_some hpr, if_pos rfl, appendExt_nil]
  · rw [hq] at hext2 ⊢
    have hfn : fileNameModel (P ++ '/' :: B) = some B :=
      (path_concat_fileName hBslash hBne hB1 hB2).1
    have hpr : parentRaw (P ++ '/' :: B) = some P := by
      have := path_concat_parent (P := P) (Or.inr ⟨hfixP, hPne⟩) hBslash hBne hB1 hB2
      rw [if_neg hPne] at this
      exact this
    have hProot : P ≠ ['/'] := by
      intro hcontra
      rw [hcontra] at hfixP
      exact absurd hfixP (by decide)
    unfold sanitized_filename sanitizeBase
    rw [hext2, hfn]
    have hgd : (some B).getD [] = B := rfl
    rw [hgd, hagain, attachParent_some hpr, if_neg hProot, appendExt_nil]

/-- Re-running `sanitized_filename` (Full mode) on a rebuilt path of the form
`prefix / base . ext` gives it back unchanged. -/
theorem sanitized_fix_ext (D2 : List Char → Bool) {q B P e : List Char} {r : Char}
    (he : e ≠ []) (hdotE : '.' ∉ e) (hslashE : '/' ∉ e)
    (hfixe : ∀ c ∈ e, fullKeep c = true ∨ c = r)
    (hhe : e.head? ≠ some r)
    (hnre : noRun r e)
    (hfixB : ∀ c ∈ B, mapChar .Full r c = c)
    (hnrB : noRun r B)
    (hheadB : B.head? ≠ some r)
    (hlastB : B.getLast? ≠ some r)
    (hBslash : '/' ∉ B) (_hBdot : '.' ∉ B)
    (hshape : q = B ++ '.' :: e ∨ q = '/' :: (B ++ '.' :: e) ∨
      (q = P ++ '/' :: (B ++ '.' :: e) ∧ backTrim P.reverse = P.reverse ∧ P ≠ [] ∧ P ≠ ['.']))
    (hqhd : q.head? ≠ some '.')
    (hD2 : D2 q = false) :
    sanitized_filename D2 q r .Full = q := by
  have htne : B ++ '.' :: e ≠ [] := by simp
  have htslash : '/' ∉ B ++ '.' :: e := by
    intro hm
    rcases List.mem_append.mp hm with hm | hm
    · exact hBslash hm
    · rcases List.mem_cons.mp hm with hm | hm
      · exact absurd hm.symm (by decide)
      · exact hslashE hm
  have ht1 : B ++ '.' :: e ≠ ['.'] := by
    intro hcontra
    have hl := congrArg List.length hcontra
    simp only [List.length_append, List.length_cons, List.length_nil] at hl
    have hepos : 0 < e.length := List.length_pos.mpr he
    omega
  have ht2 : B ++ '.' :: e ≠ ['.', '.'] := by
    intro hcontra
    have hl := congrArg List.length hcontra
    simp only [List.length_append, List.length_cons, List.length_nil] at hl
    have hepos : 0 < e.length := List.length_pos.mpr he
    have hB0 : B.length = 0 := by omega
    have hBnil : B = [] := List.eq_nil_of_length_eq_zero hB0
    rw [hBnil, List.nil_append] at hcontra
    have hecons : e = ['.'] := by
      injection hcontra with h1 h2
    exact hdotE (by rw [hecons]; exact List.mem_singleton.mpr rfl)
  have hagain : sanitize_component (B ++ '.' :: e) r e .Full = B :=
    sanitize_full_ext_again he hfixe hhe hnre hfixB hnrB hheadB hlastB
  rcases hshape with hq | hq | ⟨hq, hfixP, hPne, hPdot⟩
  · have hBne : B ≠ [] := by
      intro hcontra
      rw [hq, hcontra, List.nil_append] at hqhd
      exact hqhd rfl
    rw [hq] at hD2 ⊢
    have hext2 : extract_extension D2 (B ++ '.' :: e) = e :=
      extract_of_append_ext D2 he hdotE (hq ▸ hqhd) hD2
    have hfn : fileNameModel (B ++ '.' :: e) = some (B ++ '.' :: e) :=
      fileNameModel_noslash htslash htne ht1 ht2
    have hpr : parentRaw (B ++ '.' :: e) = none := parentRaw_noslash htslash htne ht1
    unfold sanitized_filename sanitizeBase
    rw [hext2, hfn]
    have hgd : (some (B ++ '.' :: e)).getD [] = B ++ '.' :: e := rfl
    rw [hgd, hagain, attachParent_none hpr, appendExt_cons he hBne]
  · rw [hq] at hD2 ⊢
    have hrw : '/' :: (B ++ '.' :: e) = ('/' :: B) ++ '.' :: e := by
      rw [List.cons_append]
    have hext2 : extract_extension D2 ('/' :: (B ++ '.' :: e)) = e := by
      rw [hrw]
      apply extract_of_append_ext D2 he hdotE
      · rw [← hrw]
        intro hcontra
        exact absurd (Option.some.inj hcontra).symm (by decide)
      · rw [← hrw]
        exact hD2
    have hcons : '/' :: (B ++ '.' :: e) = [] ++ '/' :: (B ++ '.' :: e) := rfl
    have hfn : fileNameModel ('/' :: (B ++ '.' :: e)) = some (B ++ '.' :: e) := by
      rw [hcons]
      exact (path_concat_fileName htslash htne ht1 ht2).1
    have hpr : parentRaw ('/' :: (B ++ '.' :: e)) = some ['/'] := by
      rw [hcons]
      have := path_concat_parent (P := []) (Or.inl rfl) htslash htne ht1 ht2
      rw [if_pos rfl] at this
      exact this
    unfold sanitized_filename sanitizeBase
    rw [hext2, hfn]
    have hgd : (some (B ++ '.' :: e)).getD [] = B ++ '.' :: e := rfl
    rw [hgd, hagain, attachParent_some hpr, if_pos rfl,
      appendExt_cons he (List.cons_ne_nil _ _), List.cons_append]
  · rw [hq] at hD2 ⊢
    have hrw : P ++ '/' :: (B ++ '.' :: e) = (P ++ '/' :: B) ++ '.' :: e := by
      rw [List.append_assoc, List.cons_append]
    have hext2 : extract_extension D2 (P ++ '/' :: (B ++ '.' :: e)) = e := by
      rw [hrw]
      apply extract_of_append_ext D2 he hdotE
      · rw [← hrw]
        rw [hq] at hqhd
        exact hqhd
      · rw [← hrw]
        exact hD2
    have hfn : fileNameModel (P ++ '/' :: (B ++ '.' :: e)) = some (B ++ '.' :: e) :=
      (path_concat_fileName htslash htne ht1 ht2).1
    have hpr : parentRaw (P ++ '/' :: (B ++ '.' :: e)) = some P := by
      have := path_concat_parent (P := P) (Or.inr ⟨hfixP, hPne⟩) htslash htne ht1 ht2
      rw [if_neg hPne] at this
      exact this
    have hProot : P ≠ ['/'] := by
      intro hcontra
      rw [hcontra] at hfixP
      exact absurd hfixP (by decide)
    unfold sanitized_filename sanitizeBase
    rw [hext2, hfn]
    have hgd : (some (B ++ '.' :: e)).getD [] = B ++ '.' :: e := rfl
    rw [hgd, hagain, attachParent_some hpr, if_neg hProot,
      appendExt_cons he (by simp), List.append_assoc, List.cons_append]

/-- Legacy-mode idempotence for names free of the stripped character set. -/
theorem sanitized_legacy_idem (D D2 : List Char → Bool) (p : List Char) (r : Char)
    (hp : ∀ c ∈ p, legacyStripped c = false) :
    sanitized_filename D2 (sanitized_filename D p r .Legacy) r .Legacy
      = sanitized_filename D p r .Legacy := by
  have hdotp : '.' ∉ p := by
    intro hm
    have h2 := hp '.' hm
    rw [show legacyStripped '.' = true from by decide] at h2
    exact Bool.noConfusion h2
  have hext : extract_extension D p = [] := extract_eq_nil_of_nodot D hdotp
  cases hft : fileNameModel p with
  | none =>
      obtain ⟨hbt, hpr⟩ := fileNameModel_none_no_dot hft hdotp
      have hqe : sanitized_filename D p r .Legacy = [] := by
        unfold sanitized_filename sanitizeBase
        rw [hext, hft, attachParent_none hpr]
        have hgd : (none : Option (List Char)).getD [] = [] := rfl
        rw [hgd]
        have hsan : sanitize_component [] r [] .Legacy = [] := rfl
        rw [hsan, appendExt_nil]
      rw [hqe]
      exact sanitized_filename_nil D2 r .Legacy
  | some t =>
      obtain ⟨htne, htslash, ht1, ht2⟩ := fileNameModel_facts hft
      have htsub := fileNameModel_subset hft
      have hB : sanitizeBase D p r .Legacy = sanitize_component t r [] .Legacy := by
        unfold sanitizeBase
        rw [hext, hft]
        rfl
      set B := sanitize_component t r [] .Legacy with hBdef
      have hBchars : ∀ c ∈ B, c ∈ p := by
        intro c hc
        obtain ⟨c0, hc0, hmap⟩ := sanitize_component_chars t r [] .Legacy c hc
        have hfix0 : mapChar .Legacy r c0 = c0 :=
          mapChar_legacy_fixes (hp c0 (htsub c0 hc0))
        rw [hfix0] at hmap
        rw [← hmap]
        exact htsub c0 hc0
      have hBfix : ∀ c ∈ B, mapChar .Legacy r c = c := by
        intro c hc
        exact mapChar_legacy_fixes (hp c (hBchars c hc))
      have hBdot : '.' ∉ B := fun hm => hdotp (hBchars '.' hm)
      have hBslash : '/' ∉ B := by
        intro hm
        obtain ⟨c0, hc0, hmap⟩ := sanitize_component_chars t r [] .Legacy '/' hm
        have hfix0 : mapChar .Legacy r c0 = c0 :=
          mapChar_legacy_fixes (hp c0 (htsub c0 hc0))
        rw [hfix0] at hmap
        exact htslash (hmap ▸ hc0)
      have hBne : B ≠ [] := sanitize_component_ne_nil .Legacy htne
      have hBnr : noRun r B := sanitize_component_noRun t r [] .Legacy
      have hBedge := sanitize_component_edges t r [] .Legacy
      have hq : sanitized_filename D p r .Legacy = attachParent p B := by
        unfold sanitized_filename
        rw [hext, hB, appendExt_nil]
      cases hpr : parentRaw p with
      | none =>
          rw [hq, attachParent_none hpr]
          apply sanitized_fix_noext D2 (P := []) hBne hBslash hBdot hBfix hBnr hBedge
            (Or.inl rfl)
          exact extract_eq_nil_of_nodot D2 hBdot
      | some P =>
          rw [hq, attachParent_some hpr]
          by_cases hProot : P = ['/']
          · rw [if_pos hProot]
            apply sanitized_fix_noext D2 (P := []) hBne hBslash hBdot hBfix hBnr hBedge
              (Or.inr (Or.inl rfl))
            apply extract_eq_nil_of_nodot D2
            intro hm
            rcases List.mem_cons.mp hm with hm | hm
            · exact absurd hm.symm (by decide)
            · exact hBdot hm
          · rw [if_neg hProot]
            rcases parentRaw_shape hpr with ⟨hP, _⟩ | ⟨hfixP, hPne, hPdot, _, hPpre⟩
            · exact absurd hP hProot
            · apply sanitized_fix_noext D2 (P := P) hBne hBslash hBdot hBfix hBnr hBedge
                (Or.inr (Or.inr ⟨rfl, hfixP, hPne, hPdot⟩))
              apply extract_eq_nil_of_nodot D2
              intro hm
              rcases List.mem_append.mp hm with hm | hm
              · exact hdotp (hPpre.sublist.subset hm)
              · rcases List.mem_cons.mp hm with hm | hm
                · exact absurd hm.symm (by decide)
                · exact hBdot hm

/-- Full-mode idempotence under the amended side conditions. -/
theorem sanitized_full_idem (D D2 : List Char → Bool) (p : List Char) (r : Char)
    (hrs : r ≠ '/') (hrd : r ≠ '.')
    (hfn : fileNameModel p ≠ none)
    (hnilreason : extract_extension D p = [] → has_dot p = false ∨ is_hidden p = true)
    (hslash : '/' ∉ extract_extension D p)
    (hfixe : ∀ c ∈ extract_extension D p, fullKeep c = true ∨ c = r)
    (hhe : (extract_extension D p).head? ≠ some r)
    (hlaste : (extract_extension D p).getLast? ≠ some r)
    (hnre : noRun r (extract_extension D p))
    (hD2 : D2 (sanitized_filename D p r .Full) = false) :
    sanitized_filename D2 (sanitized_filename D p r .Full) r .Full
      = sanitized_filename D p r .Full := by
  by_cases hez : extract_extension D p = []
  · cases hft : fileNameModel p with
    | none => exact absurd hft hfn
    | some t =>
        obtain ⟨htne, htslash, ht1, ht2⟩ := fileNameModel_facts hft
        have hB : sanitizeBase D p r .Full = sanitize_component t r [] .Full := by
          unfold sanitizeBase
          rw [hez, hft]
          rfl
        set B := sanitize_component t r [] .Full with hBdef
        have hBchars : ∀ c ∈ B, fullKeep c = true ∨ c = r := by
          intro c hc
          obtain ⟨c0, hc0, hmap⟩ := sanitize_component_chars t r [] .Full c hc
          have h2 := mapChar_full_mem r c0
          rw [hmap] at h2
          exact h2
        have hBfix : ∀ c ∈ B, mapChar .Full r c = c := by
          intro c hc
          exact mapChar_full_fixes (hBchars c hc)
        have hBdot : '.' ∉ B := by
          intro hm
          rcases hBchars '.' hm with h2 | h2
          · exact absurd h2 (by decide)
          · exact hrd h2.symm
        have hBslash : '/' ∉ B := by
          intro hm
          rcases hBchars '/' hm with h2 | h2
          · exact absurd h2 (by decide)
          · exact hrs h2.symm
        have hBne : B ≠ [] := sanitize_component_ne_nil .Full htne
        have hBnr : noRun r B := sanitize_component_noRun t r [] .Full
        have hBedge := sanitize_component_edges t r [] .Full
        have hq : sanitized_filename D p r .Full = attachParent p B := by
          unfold sanitized_filename
          rw [hez, hB, appendExt_nil]
        cases hpr : parentRaw p with
        | none =>
            rw [hq, attachParent_none hpr]
            apply sanitized_fix_noext D2 (P := []) hBne hBslash hBdot hBfix hBnr hBedge
              (Or.inl rfl)
            exact extract_eq_nil_of_nodot D2 hBdot
        | some P =>
            rw [hq, attachParent_some hpr]
            by_cases hProot : P = ['/']
            · rw [if_pos hProot]
              apply sanitized_fix_noext D2 (P := []) hBne hBslash hBdot hBfix hBnr hBedge
                (Or.inr (Or.inl rfl))
              apply extract_eq_nil_of_nodot D2
              intro hm
              rcases List.mem_cons.mp hm with hm | hm
              · exact absurd hm.symm (by decide)
              · exact hBdot hm
            · rw [if_neg hProot]
              rcases parentRaw_shape hpr with ⟨hP, _⟩ | ⟨hfixP, hPne, hPdot, _, hPpre⟩
              · exact absurd hP hProot
              · apply sanitized_fix_noext D2 (P := P) hBne hBslash hBdot hBfix hBnr hBedge
                  (Or.inr (Or.inr ⟨rfl, hfixP, hPne, hPdot⟩))
                rcases hnilreason hez with hnd | hhid
                · apply extract_eq_nil_of_nodot D2
                  intro hm
                  rcases List.mem_append.mp hm with hm | hm
                  · exact has_dot_false_not_mem hnd (hPpre.sublist.subset hm)
                  · rcases List.mem_cons.mp hm with hm | hm
                    · exact absurd hm.symm (by decide)
                    · exact hBdot hm
                · apply extract_eq_nil_of_hidden D2
                  have hphd : p.head? = some '.' := by
                    unfold is_hidden at hhid
                    simpa using hhid
                  rw [head?_append_left _ hPne, ← head?_of_isPre hPpre hPne]
                  exact hphd
  · obtain ⟨heavd, hdotmem, hphd, hDp2, hdotE, w0, hdec⟩ := extract_ne_facts hez
    obtain ⟨hftm, hwslash⟩ := fileNameModel_of_ext hdec hez hdotE hslash
    have hB : sanitizeBase D p r .Full
        = sanitize_component ((w0.reverse.takeWhile (· != '/')).reverse
            ++ '.' :: extract_extension D p) r (extract_extension D p) .Full := by
      unfold sanitizeBase
      rw [hftm]
      rfl
    set w := (w0.reverse.takeWhile (· != '/')).reverse with hwdef
    set e := extract_extension D p with hedef
    set B := sanitize_component (w ++ '.' :: e) r e .Full with hBdef
    have hSC : B = trimEnds r (dropTrailR r (collapseRuns r (w.map (mapChar .Full r)))) :=
      sanitize_full_ext w hez hfixe hhe hnre
    have hBhead : B.head? ≠ some r := by rw [hSC]; exact trimEnds_head r _
    have hBlast : B.getLast? ≠ some r := by rw [hSC]; exact trimEnds_getLast r _
    have hBnr : noRun r B := sanitize_component_noRun _ r e .Full
    have hBchars : ∀ c ∈ B, fullKeep c = true ∨ c = r := by
      intro c hc
      obtain ⟨c0, hc0, hmap⟩ := sanitize_component_chars (w ++ '.' :: e) r e .Full c hc
      have h2 := mapChar_full_mem r c0
      rw [hmap] at h2
      exact h2
    have hBfix : ∀ c ∈ B, mapChar .Full r c = c := by
      intro c hc
      exact mapChar_full_fixes (hBchars c hc)
    have hBdot : '.' ∉ B := by
      intro hm
      rcases hBchars '.' hm with h2 | h2
      · exact absurd h2 (by decide)
      · exact hrd h2.symm
    have hBslash : '/' ∉ B := by
      intro hm
      rcases hBchars '/' hm with h2 | h2
      · exact absurd h2 (by decide)
      · exact hrs h2.symm
    have hq : sanitized_filename D p r .Full = appendExt e (attachParent p B) := by
      unfold sanitized_filename
      rw [← hedef, hB]
    cases hpr : parentRaw p with
    | none =>
        by_cases hBnil : B = []
        · have hqe : sanitized_filename D p r .Full = e := by
            rw [hq, attachParent_none hpr, hBnil, appendExt_of_nil hez]
          rw [hqe]
          apply sanitized_fix_noext D2 (P := []) hez hslash hdotE
            (fun c hc => mapChar_full_fixes (hfixe c hc)) hnre
            (Or.inr ⟨hhe, hlaste⟩) (Or.inl rfl)
          exact extract_eq_nil_of_nodot D2 hdotE
        · have hqe : sanitized_filename D p r .Full = B ++ '.' :: e := by
            rw [hq, attachParent_none hpr, appendExt_cons hez hBnil]
          rw [hqe] at hD2 ⊢
          apply sanitized_fix_ext D2 (P := []) hez hdotE hslash hfixe hhe hnre
            hBfix hBnr hBhead hBlast hBslash hBdot (Or.inl rfl) ?_ hD2
          rw [head?_append_left _ hBnil]
          intro hcontra
          exact hBdot (List.mem_of_mem_head? (Option.mem_def.mpr hcontra))
    | some P =>
        by_cases hProot : P = ['/']
        · have hqe : sanitized_filename D p r .Full = '/' :: (B ++ '.' :: e) := by
            rw [hq, attachParent_some hpr, if_pos hProot,
              appendExt_cons hez (List.cons_ne_nil _ _), List.cons_append]
          rw [hqe] at hD2 ⊢
          apply sanitized_fix_ext D2 (P := []) hez hdotE hslash hfixe hhe hnre
            hBfix hBnr hBhead hBlast hBslash hBdot (Or.inr (Or.inl rfl)) ?_ hD2
          intro hcontra
          exact absurd (Option.some.inj hcontra).symm (by decide)
        · rcases parentRaw_shape hpr with ⟨hP, _⟩ | ⟨hfixP, hPne, hPdot, _, hPpre⟩
          · exact absurd hP hProot
          · have hqe : sanitized_filename D p r .Full = P ++ '/' :: (B ++ '.' :: e) := by
              rw [hq, attachParent_some hpr, if_neg hProot,
                appendExt_cons hez (by simp), List.append_assoc, List.cons_append]
            rw [hqe] at hD2 ⊢
            apply sanitized_fix_ext D2 (P := P) hez hdotE hslash hfixe hhe hnre
              hBfix hBnr hBhead hBlast hBslash hBdot
              (Or.inr (Or.inr ⟨rfl, hfixP, hPne, hPdot⟩)) ?_ hD2
            rw [head?_append_left _ hPne, ← head?_of_isPre hPpre hPne]
            exact hphd

/-- C2 (amended): Full-mode sanitization is idempotent for inputs whose
replacement character is not a path separator or dot, whose final path
component exists, whose extracted extension is made of surviving characters
with no replacement character at its edges and no replacement run, whose
extensionless inputs are so because they are dot-free or hidden, and which do
not name a directory at either evaluation; Legacy mode is idempotent for
names containing none of the Legacy-stripped punctuation set. -/
theorem claim2_amended_idempotence :
    (∀ (D D2 : List Char → Bool) (p : List Char) (r : Char),
        r ≠ '/' → r ≠ '.' →
        fileNameModel p ≠ none →
        (extract_extension D p = [] → has_dot p = false ∨ is_hidden p = true) →
        '/' ∉ extract_extension D p →
        (∀ c ∈ extract_extension D p, fullKeep c = true ∨ c = r) →
        (extract_extension D p).head? ≠ some r →
        (extract_extension D p).getLast? ≠ some r →
        noRun r (extract_extension D p) →
        D2 (sanitized_filename D p r .Full) = false →
        sanitized_filename D2 (sanitized_filename D p r .Full) r .Full
          = sanitized_filename D p r .Full) ∧
    (∀ (D D2 : List Char → Bool) (p : List Char) (r : Char),
        (∀ c ∈ p, legacyStripped c = false) →
        sanitized_filename D2 (sanitized_filename D p r .Legacy) r .Legacy
          = sanitized_filename D p r .Legacy) :=
  ⟨fun D D2 p r h1 h2 h3 h4 h5 h6 h7 h8 h9 h10 =>
      sanitized_full_idem D D2 p r h1 h2 h3 h4 h5 h6 h7 h8 h9 h10,
   fun D D2 p r hp => sanitized_legacy_idem D D2 p r hp⟩

/-- Witness for C2 (amended): the Full-mode branch at the concrete input
"a b.txt" with replacement '_' and a file system containing no directories. -/
theorem claim2_amended_witness :
    sanitized_filename (fun _ => false)
        (sanitized_filename (fun _ => false)
          ['a', ' ', 'b', '.', 't', 'x', 't'] '_' .Full) '_' .Full
      = sanitized_filename (fun _ => false)
          ['a', ' ', 'b', '.', 't', 'x', 't'] '_' .Full :=
  claim2_amended_idempotence.1 (fun _ => false) (fun _ => false)
    ['a', ' ', 'b', '.', 't', 'x', 't'] '_'
    (by decide) (by decide) (by decide) (by decide) (by decide) (by decide)
    (by decide) (by decide)
    (by
      rw [show extract_extension (fun _ => false)
            ['a', ' ', 'b', '.', 't', 'x', 't'] = ['t', 'x', 't'] from by decide]
      unfold noRun
      simp only [List.chain'_cons, List.chain'_singleton]
      decide)
    (by decide)
